import Mathlib

/-!
# linear-reorder.c: a one-pass implementation of UBA rule L2

A shallow embedding of `src/linear-reorder.c`.  The C program works on two kinds
of heap cells, `struct run_t` (owned by the caller) and `struct range_t`
(obtained from `malloc` and given back with `free`).  Pointers are natural
numbers, `0` is `NULL`.  Every C statement that dereferences a pointer becomes a
load or a store in the `Except Fault` monad, `assert` becomes `c_assert`, and the
three `while` loops become functions that recurse on a fuel argument.
-/

namespace LinearReorder

/-! ## Data model -/

/-- The cell `struct run_t`: `level`, the members the source elides in the comment
`len, glyphs, text, ...` (kept as one field `payload`), and the `next` pointer. -/
structure run_t (α : Type) where
  level : Int
  payload : α
  next : Nat

/-- The cell `struct range_t`: `level`, the pointers `left` and `right` to runs and the
pointer `previous` to the range beneath this one. -/
structure range_t where
  level : Int
  left : Nat
  right : Nat
  previous : Nat

/-- Ways in which an execution can stop without returning.  An access through a null
pointer or through a pointer to a cell that is not allocated is undefined behaviour in C:
the embedding stops at the first such access and records it as `null_deref` or
`dangling`, it says nothing of what follows. -/
inductive Fault where
  | assert_failed
  | null_deref
  | dangling
  | out_of_fuel
  deriving DecidableEq

/-- The memory: run cells, range cells, the list of range addresses that are currently
allocated, the number of range cells the allocator can hold at once, and counters of the
successful `malloc` and `free` calls. -/
structure Mem (α : Type) where
  runs : Nat → run_t α
  ranges : Nat → range_t
  live : List Nat
  limit : Nat
  mallocs : Nat
  frees : Nat

variable {α : Type}

/-! ## Memory operations -/

/-- Reading through a run pointer. -/
def Mem.load_run (m : Mem α) (p : Nat) : Except Fault (run_t α) :=
  if p = 0 then .error .null_deref else .ok (m.runs p)

/-- The memory after the member `next` of the run cell at `p` is set to `v`. -/
def Mem.set_next (m : Mem α) (p v : Nat) : Mem α :=
  { m with runs := Function.update m.runs p { m.runs p with next := v } }

/-- The memory after the range cell at `p` is set to `r`. -/
def Mem.set_range (m : Mem α) (p : Nat) (r : range_t) : Mem α :=
  { m with ranges := Function.update m.ranges p r }

/-- The assignment `p->next = v` for a run pointer `p`. -/
def Mem.store_next (m : Mem α) (p v : Nat) : Except Fault (Mem α) :=
  if p = 0 then .error .null_deref else .ok (m.set_next p v)

/-- Reading through a range pointer: the cell has to be allocated. -/
def Mem.load_range (m : Mem α) (p : Nat) : Except Fault range_t :=
  if p = 0 then .error .null_deref
  else if p ∈ m.live then .ok (m.ranges p)
  else .error .dangling

/-- Writing a whole range cell: the cell has to be allocated. -/
def Mem.store_range (m : Mem α) (p : Nat) (r : range_t) : Except Fault (Mem α) :=
  if p = 0 then .error .null_deref
  else if p ∈ m.live then .ok (m.set_range p r)
  else .error .dangling

/-- The assignment `p->level = v`. -/
def Mem.store_level (m : Mem α) (p : Nat) (v : Int) : Except Fault (Mem α) := do
  let r ← m.load_range p
  m.store_range p { r with level := v }

/-- The assignment `p->left = v`. -/
def Mem.store_left (m : Mem α) (p v : Nat) : Except Fault (Mem α) := do
  let r ← m.load_range p
  m.store_range p { r with left := v }

/-- The assignment `p->right = v`. -/
def Mem.store_right (m : Mem α) (p v : Nat) : Except Fault (Mem α) := do
  let r ← m.load_range p
  m.store_range p { r with right := v }

/-- The assignment `p->previous = v`. -/
def Mem.store_previous (m : Mem α) (p v : Nat) : Except Fault (Mem α) := do
  let r ← m.load_range p
  m.store_range p { r with previous := v }

/-- An address that is not `NULL` and not allocated. -/
def fresh (live : List Nat) : Nat := live.foldr max 0 + 1

/-- The call `malloc (sizeof (struct range_t))`: `NULL` when the allocator is full,
otherwise a new cell whose content is whatever was there. -/
def malloc (m : Mem α) : Nat × Mem α :=
  if m.live.length < m.limit then
    (fresh m.live, { m with live := fresh m.live :: m.live, mallocs := m.mallocs + 1 })
  else (0, m)

/-- The call `free (p)`: a no-op on `NULL`, a fault on a cell that is not allocated. -/
def free (m : Mem α) (p : Nat) : Except Fault (Mem α) :=
  if p = 0 then .ok m
  else if p ∈ m.live then .ok { m with live := m.live.erase p, frees := m.frees + 1 }
  else .error .dangling

/-- The macro `assert`. -/
def c_assert (c : Prop) [Decidable c] : Except Fault Unit :=
  if c then .ok () else .error .assert_failed

/-- The C operator `%` on `int` (remainder of the division that truncates). -/
def c_mod (a b : Int) : Int := Int.tmod a b

/-! ## The program -/

/-- The function `merge_range_with_previous`: merges range with previous range, frees
range, and returns previous. -/
def merge_range_with_previous (range : Nat) (m : Mem α) : Except Fault (Nat × Mem α) := do
  let rg ← m.load_range range
  let previous := rg.previous
  c_assert (rg.previous ≠ 0)
  let pv ← m.load_range previous
  c_assert (pv.level < rg.level)
  let (left, right) :=
    if c_mod pv.level 1 ≠ 0 then
      (range, previous)
    else
      (previous, range)
  -- left->right->next = right->left;
  let l ← m.load_range left
  let r ← m.load_range right
  let m ← m.store_next l.right r.left
  -- previous->left = left->left;
  let l ← m.load_range left
  let m ← m.store_left previous l.left
  -- previous->right = right->right;
  let r ← m.load_range right
  let m ← m.store_right previous r.right
  let m ← free m range
  return (previous, m)

/-- The test of the inner loop of `linear_reorder`,
`range && range->level > run->level && range->previous &&
range->previous->level >= run->level`, evaluated from left to right. -/
def flatten_test (range run : Nat) (m : Mem α) : Except Fault Bool := do
  if range = 0 then return false
  let rg ← m.load_range range
  let rn ← m.load_run run
  if ¬ rg.level > rn.level then return false
  if rg.previous = 0 then return false
  let pv ← m.load_range rg.previous
  return decide (pv.level ≥ rn.level)

/-- The inner loop of `linear_reorder`:
`while (...) range = merge_range_with_previous (range);` -/
def flatten : Nat → Nat → Nat → Mem α → Except Fault (Nat × Mem α)
  | 0, _, _, _ => .error .out_of_fuel
  | fuel + 1, range, run, m => do
    if (← flatten_test range run m) then
      let (range, m) ← merge_range_with_previous range m
      flatten fuel range run m
    else
      return (range, m)

/-- The test `range && range->level >= run->level` of the `if` after the inner loop,
evaluated from left to right. -/
def attach_test (range run : Nat) (m : Mem α) : Except Fault Bool := do
  if range = 0 then return false
  let rg ← m.load_range range
  let rn ← m.load_run run
  return decide (rg.level ≥ rn.level)

/-- The first branch of the `if` after the inner loop: attach run to the range. -/
def attach (range run : Nat) (m : Mem α) : Except Fault (Mem α) := do
  let rn ← m.load_run run
  let m ← (do
    if c_mod rn.level 1 ≠ 0 then
      -- run->next = range->left; range->left = run;
      let rg ← m.load_range range
      let m ← m.store_next run rg.left
      m.store_left range run
    else
      -- range->right->next = run; range->right = run;
      let rg ← m.load_range range
      let m ← m.store_next rg.right run
      m.store_right range run : Except Fault (Mem α))
  -- range->level = run->level;
  let rn ← m.load_run run
  m.store_level range rn.level

/-- The second branch of the `if` after the inner loop: allocate new range for run and
push into stack. -/
def push (range run : Nat) (m : Mem α) : Except Fault (Nat × Mem α) := do
  let (r, m) := malloc m
  -- r->left = r->right = run;
  let m ← m.store_right r run
  let m ← m.store_left r run
  -- r->level = run->level;
  let rn ← m.load_run run
  let m ← m.store_level r rn.level
  -- r->previous = range;
  let m ← m.store_previous r range
  return (r, m)

/-- The `if`/`else` after the inner loop: attach the run to the range on top, or
allocate a new range for the run and push it; the result is the new value of the
variable `range`. -/
def attach_or_push (range run : Nat) (m : Mem α) : Except Fault (Nat × Mem α) := do
  if (← attach_test range run m) then
    let m ← attach range run m
    return (range, m)
  else
    push range run m

/-- The outer loop of `linear_reorder`, `while (run) { ... run = next_run; }`; the
argument `gas` is the fuel handed to each run of the inner loop. -/
def sweep (gas : Nat) : Nat → Nat → Nat → Mem α → Except Fault (Nat × Mem α)
  | 0, _, _, _ => .error .out_of_fuel
  | fuel + 1, run, range, m =>
    if run = 0 then .ok (range, m)
    else do
      let rn ← m.load_run run
      let next_run := rn.next
      let (range, m) ← flatten gas range run m
      let (range, m) ← attach_or_push range run m
      sweep gas fuel next_run range m

/-- The last loop of `linear_reorder`:
`while (range->previous) range = merge_range_with_previous (range);` -/
def unwind : Nat → Nat → Mem α → Except Fault (Nat × Mem α)
  | 0, _, _ => .error .out_of_fuel
  | fuel + 1, range, m => do
    let rg ← m.load_range range
    if rg.previous ≠ 0 then
      let (range, m) ← merge_range_with_previous range m
      unwind fuel range m
    else
      return (range, m)

/-- The function `linear_reorder`: takes a list of runs on the line in the logical order
and reorders the list to be in visual order, returning the left-most run.  Each of its
loops may run `fuel` times. -/
def linear_reorder (fuel : Nat) (line : Nat) (m : Mem α) : Except Fault (Nat × Mem α) :=
  if line = 0 then .ok (0, m)
  else do
    let (range, m) ← sweep fuel fuel line 0 m
    c_assert (range ≠ 0)
    let (range, m) ← unwind fuel range m
    -- range->right->next = NULL;
    let rg ← m.load_range range
    let m ← m.store_next rg.right 0
    let rg ← m.load_range range
    return (rg.left, m)

/-! ## Reading lists of runs -/

/-- The runs met when following `next` from `p`, when `NULL` is met within `fuel` steps. -/
def walk (runs : Nat → run_t α) : Nat → Nat → Option (List Nat)
  | 0, p => if p = 0 then some [] else none
  | fuel + 1, p => if p = 0 then some [] else (walk runs fuel (runs p).next).map (p :: ·)

/-- The pointer `p` heads the list whose cells are at the addresses `as`, in this order,
and whose last cell points to `q`. -/
def IsList (runs : Nat → run_t α) : Nat → List Nat → Nat → Prop
  | p, [], q => p = q
  | p, a :: as, q => p = a ∧ a ≠ 0 ∧ IsList runs (runs a).next as q

instance IsList.decide (runs : Nat → run_t α) : ∀ p as q, Decidable (IsList runs p as q)
  | p, [], q => inferInstanceAs (Decidable (p = q))
  | p, a :: as, q =>
    have := IsList.decide runs (runs a).next as q
    inferInstanceAs (Decidable (p = a ∧ a ≠ 0 ∧ IsList runs (runs a).next as q))

/-- The memory that holds a line of runs with the given levels at the addresses
`1, 2, ..., n`, linked in this order, no range allocated and room for `n` ranges. -/
def line_of (levels : List Int) : Mem Unit where
  runs := fun a => ⟨levels.getD (a - 1) 0, (), if a < levels.length then a + 1 else 0⟩
  ranges := fun _ => ⟨0, 0, 0, 0⟩
  live := []
  limit := levels.length
  mallocs := 0
  frees := 0

/-- The pointer to the first run of `line_of levels`. -/
def head_of (levels : List Int) : Nat := if levels = [] then 0 else 1

/-- The addresses of the runs in the order `linear_reorder` leaves them in, for a line
with the given levels. -/
def visual_order (levels : List Int) : Except Fault (Option (List Nat)) := do
  let (head, m) ← linear_reorder (levels.length + 1) (head_of levels) (line_of levels)
  return walk m.runs levels.length head

/-! ## UBA rule L2, as the specification words it -/

/-- Reverse every maximal contiguous sequence of items whose level is `k` or higher;
`acc` is the reversed sequence that is being collected. -/
def reverse_sequences (k : Int) : List (Int × Nat) → List (Int × Nat) → List (Int × Nat)
  | acc, [] => acc
  | acc, x :: xs =>
    if k ≤ x.1 then reverse_sequences k (x :: acc) xs
    else acc ++ x :: reverse_sequences k [] xs

/-- Rule L2 on a list of (level, run): for each level from the highest level present down
to the lowest odd level present, reverse every maximal contiguous sequence of runs whose
level is that level or higher. -/
def rule_L2 (xs : List (Int × Nat)) : List (Int × Nat) :=
  let highest := (xs.map (·.1)).foldr max 0
  match ((xs.map (·.1)).filter (fun l => l % 2 = 1)).min? with
  | none => xs
  | some lowest_odd =>
    ((List.range (highest - lowest_odd + 1).toNat).map (fun i => highest - (i : Int))).foldl
      (fun acc k => reverse_sequences k [] acc) xs

/-- The addresses of the runs of `line_of levels` in the order rule L2 gives. -/
def reference_order (levels : List Int) : List Nat :=
  (rule_L2 (levels.zip (List.range' 1 levels.length))).map (·.2)

/-! ## The range stack, seen from outside -/

/-- Each run of the list is linked to the one after it. -/
def Linked (runs : Nat → run_t α) : List Nat → Prop
  | [] => True
  | [_] => True
  | a :: b :: l => (runs a).next = b ∧ Linked runs (b :: l)

/-- A range of the stack: its address, its level and its runs from left to right. -/
structure Frame where
  addr : Nat
  level : Int
  seg : List Nat

/-- The ranges reached from `range` through `previous` are allocated and are, from the top
of the stack to the bottom, the frames `stk`: each has the level of its frame, `left` and
`right` are the first and the last run of the frame, and following `next` from `left`
goes through the runs of the frame. -/
def Rep (m : Mem α) : Nat → List Frame → Prop
  | p, [] => p = 0
  | p, f :: rest =>
    p = f.addr ∧ p ≠ 0 ∧ p ∈ m.live ∧ (m.ranges p).level = f.level ∧
    f.seg.head? = some (m.ranges p).left ∧ f.seg.getLast? = some (m.ranges p).right ∧
    Linked m.runs f.seg ∧ Rep m (m.ranges p).previous rest

/-- The runs of all the ranges of the stack, the bottom range first. -/
def concat : List Frame → List Nat
  | [] => []
  | f :: rest => concat rest ++ f.seg

/-- From the top of the stack down, the levels of the ranges decrease strictly. -/
def Increasing : List Frame → Prop
  | [] => True
  | [_] => True
  | f :: g :: rest => g.level < f.level ∧ Increasing (g :: rest)

/-- The memory `merge_range_with_previous` leaves when the range beneath goes to the left
of the range on top. -/
def merged (m : Mem α) (range : Nat) : Mem α :=
  let rg := m.ranges range
  let pv := m.ranges rg.previous
  { runs := (m.set_next pv.right rg.left).runs
    ranges := Function.update m.ranges rg.previous { pv with right := rg.right }
    live := m.live.erase range
    limit := m.limit
    mallocs := m.mallocs
    frees := m.frees + 1 }

/-- The memory `attach_or_push` leaves when it attaches the run to the right of the range
on top. -/
def attached (m : Mem α) (range run : Nat) : Mem α :=
  { m with
    runs := (m.set_next (m.ranges range).right run).runs
    ranges := Function.update m.ranges range
      { m.ranges range with level := (m.runs run).level, right := run } }

/-- The memory `attach_or_push` leaves when it pushes a new range for the run. -/
def pushed (m : Mem α) (range run : Nat) : Mem α :=
  { m with
    ranges := Function.update m.ranges (fresh m.live) ⟨(m.runs run).level, run, run, range⟩
    live := fresh m.live :: m.live
    mallocs := m.mallocs + 1 }

/-- The test of the inner loop of `linear_reorder` read on the frames of the stack, for an
incoming run of level `lvl`. -/
def unsettled (lvl : Int) : List Frame → Bool
  | f :: g :: _ => decide (f.level > lvl ∧ g.level ≥ lvl)
  | _ => false

/-- The test of the `if` after the inner loop read on the frames of the stack. -/
def attaches (lvl : Int) : List Frame → Bool
  | f :: _ => decide (f.level ≥ lvl)
  | [] => false

/-- What the loops of `linear_reorder` keep true of the memory `m` and the stack that
starts at `range`, where `m0` is the memory at the call and `ps` are the runs consumed so
far, in logical order. -/
structure StackInv (m0 m : Mem α) (range : Nat) (stk : List Frame) (ps : List Nat) : Prop where
  rep : Rep m range stk
  cat : concat stk = ps
  incr : Increasing stk
  addrs : (stk.map Frame.addr).Nodup
  live : m.live = stk.map Frame.addr ++ m0.live
  limit : m.limit = m0.limit
  count : m.mallocs + m0.frees = m0.mallocs + m.frees + stk.length
  content : ∀ a, (m.runs a).level = (m0.runs a).level ∧ (m.runs a).payload = (m0.runs a).payload
  frame : ∀ a, a ∉ ps → m.runs a = m0.runs a
  pushes : m.mallocs ≤ m0.mallocs + ps.length
  merges : m0.frees ≤ m.frees

/-- A memory with one allocated range, at address 1, that has no range beneath it. -/
def lone_range : Mem Unit :=
  { line_of [0] with ranges := fun _ => ⟨0, 1, 1, 0⟩, live := [1] }

instance instDecidableEqExcept {ε β : Type} [DecidableEq ε] [DecidableEq β] :
    DecidableEq (Except ε β)
  | .ok a, .ok b =>
    if h : a = b then isTrue (by rw [h]) else isFalse (by intro e; cases e; exact h rfl)
  | .error a, .error b =>
    if h : a = b then isTrue (by rw [h]) else isFalse (by intro e; cases e; exact h rfl)
  | .ok _, .error _ => isFalse (by intro e; cases e)
  | .error _, .ok _ => isFalse (by intro e; cases e)

/-- The memory of `line_of levels` with an allocator that has room for `limit` ranges. -/
def line_with (limit : Nat) (levels : List Int) : Mem Unit :=
  { line_of levels with limit := limit }

/-- For the line with the given levels: push the first run on the empty stack, attach the
second run to the range obtained, and read that range (`level`, `left`, `right`,
`previous`) and the `next` members of the runs 1 and 2. -/
def attach_second (levels : List Int) : Except Fault ((Int × Nat × Nat × Nat) × Nat × Nat) := do
  let (r, m) ← push 0 1 (line_of levels)
  let m ← attach r 2 m
  let rg ← m.load_range r
  return ((rg.level, rg.left, rg.right, rg.previous), (m.runs 1).next, (m.runs 2).next)

/-- For the line with the given levels: push the first run on the empty stack, push the
second run on top of it, call `merge_range_with_previous` on the top, and read the range
returned (`level`, `left`, `right`, `previous`) and the `next` members of the runs 1
and 2. -/
def merge_second (levels : List Int) : Except Fault ((Int × Nat × Nat × Nat) × Nat × Nat) := do
  let (r1, m) ← push 0 1 (line_of levels)
  let (r2, m) ← push r1 2 m
  let (p, m) ← merge_range_with_previous r2 m
  let rg ← m.load_range p
  return ((rg.level, rg.left, rg.right, rg.previous), (m.runs 1).next, (m.runs 2).next)

/-- A line of three runs of levels 0, 1, 2 that sit at the addresses 7, 3, 5, in this
order, and carry payloads. -/
def scattered_line : Mem Nat where
  runs := fun a =>
    if a = 7 then ⟨0, 70, 3⟩ else if a = 3 then ⟨1, 30, 5⟩ else ⟨2, 50, 0⟩
  ranges := fun _ => ⟨0, 0, 0, 0⟩
  live := []
  limit := 3
  mallocs := 0
  frees := 0

/-! ## The points an execution goes through -/

/-- A point of an execution of `linear_reorder` between two steps, with the value of the
variable `range` and the memory there: `merged` is the point just after a call of
`merge_range_with_previous` has returned (in the inner loop or in the last loop),
`flattened` the point where the inner loop ends for the run `run`, `consumed` the point
after the `if`/`else` that attaches or pushes the run `run`. -/
inductive Point (α : Type) where
  | merged (range : Nat) (m : Mem α)
  | flattened (run range : Nat) (m : Mem α)
  | consumed (run range : Nat) (m : Mem α)

/-- The value of the variable `range` at a point. -/
def Point.range : Point α → Nat
  | .merged range _ => range
  | .flattened _ range _ => range
  | .consumed _ range _ => range

/-- The memory at a point. -/
def Point.mem : Point α → Mem α
  | .merged _ m => m
  | .flattened _ _ m => m
  | .consumed _ _ m => m

/-- The points the inner loop of `linear_reorder` goes through, in order: one after each
turn, that is after each merge; the tests and calls are those of `flatten`. -/
def flatten_trace : Nat → Nat → Nat → Mem α → List (Point α)
  | 0, _, _, _ => []
  | fuel + 1, range, run, m =>
    match flatten_test range run m with
    | .ok true =>
      match merge_range_with_previous range m with
      | .ok (range', m') => .merged range' m' :: flatten_trace fuel range' run m'
      | .error _ => []
    | _ => []

/-- The points the outer loop of `linear_reorder` goes through, in order: for each run
those of the inner loop, the point where the inner loop ends, and the point after the run
is attached or pushed; the tests and calls are those of `sweep`. -/
def sweep_trace (gas : Nat) : Nat → Nat → Nat → Mem α → List (Point α)
  | 0, _, _, _ => []
  | fuel + 1, run, range, m =>
    if run = 0 then []
    else
      flatten_trace gas range run m ++
        match flatten gas range run m with
        | .error _ => []
        | .ok (range1, m1) =>
          .flattened run range1 m1 ::
            match attach_or_push range1 run m1 with
            | .error _ => []
            | .ok (range2, m2) =>
              .consumed run range2 m2 :: sweep_trace gas fuel (m.runs run).next range2 m2

/-- The points the last loop of `linear_reorder` goes through, in order: one after each
merge; the tests and calls are those of `unwind`. -/
def unwind_trace : Nat → Nat → Mem α → List (Point α)
  | 0, _, _ => []
  | fuel + 1, range, m =>
    match m.load_range range with
    | .error _ => []
    | .ok rg =>
      if rg.previous ≠ 0 then
        match merge_range_with_previous range m with
        | .ok (range', m') => .merged range' m' :: unwind_trace fuel range' m'
        | .error _ => []
      else []

/-- The points a call of `linear_reorder` goes through, in order: those of the outer loop,
then those of the last loop. -/
def linear_reorder_trace (fuel : Nat) (line : Nat) (m : Mem α) : List (Point α) :=
  if line = 0 then []
  else
    sweep_trace fuel fuel line 0 m ++
      match sweep fuel fuel line 0 m with
      | .error _ => []
      | .ok (range, m1) => if range = 0 then [] else unwind_trace fuel range m1

/-- What holds at a point of a call made in the memory `m0` on a line of `n` runs: the
stack is well formed for some runs `ps` consumed so far; where the inner loop ends for a
run its test is false; after a run is attached or pushed the range on top has the level of
that run. -/
def Point.Good (m0 : Mem α) (n : Nat) : Point α → Prop
  | .merged range m => ∃ stk ps, StackInv m0 m range stk ps ∧ ps.length ≤ n
  | .flattened run range m =>
    ∃ stk ps, StackInv m0 m range stk ps ∧ ps.length ≤ n ∧
      unsettled (m0.runs run).level stk = false
  | .consumed run range m =>
    ∃ f rest ps, StackInv m0 m range (f :: rest) ps ∧ ps.length ≤ n ∧
      f.level = (m0.runs run).level

/-- The levels 0, 1, ..., k - 1: each run is nested one level deeper than the one before. -/
def ramp (k : Nat) : List Int := (List.range k).map Int.ofNat

/-- The number of ranges that are allocated when the outer loop of `linear_reorder` ends,
for the line with the given levels and an allocator that has room for `limit` ranges (in
`line_with limit levels` no range is allocated before the call, so these are the ranges
of the stack); 0 when the loop does not end. -/
def held_after_sweep (limit : Nat) (levels : List Int) : Nat :=
  match sweep (levels.length + 1) (levels.length + 1) (head_of levels) 0
    (line_with limit levels) with
  | .ok (_, m) => m.live.length
  | .error _ => 0

/-! ## Memory operations: basic facts -/

@[simp] theorem set_next_live (m : Mem α) (p v : Nat) : (m.set_next p v).live = m.live := rfl
@[simp] theorem set_next_ranges (m : Mem α) (p v : Nat) : (m.set_next p v).ranges = m.ranges := rfl
@[simp] theorem set_next_limit (m : Mem α) (p v : Nat) : (m.set_next p v).limit = m.limit := rfl
@[simp] theorem set_next_mallocs (m : Mem α) (p v : Nat) :
    (m.set_next p v).mallocs = m.mallocs := rfl
@[simp] theorem set_next_frees (m : Mem α) (p v : Nat) : (m.set_next p v).frees = m.frees := rfl
@[simp] theorem set_range_live (m : Mem α) (p : Nat) (r : range_t) :
    (m.set_range p r).live = m.live := rfl
@[simp] theorem set_range_runs (m : Mem α) (p : Nat) (r : range_t) :
    (m.set_range p r).runs = m.runs := rfl
@[simp] theorem set_range_limit (m : Mem α) (p : Nat) (r : range_t) :
    (m.set_range p r).limit = m.limit := rfl
@[simp] theorem set_range_mallocs (m : Mem α) (p : Nat) (r : range_t) :
    (m.set_range p r).mallocs = m.mallocs := rfl
@[simp] theorem set_range_frees (m : Mem α) (p : Nat) (r : range_t) :
    (m.set_range p r).frees = m.frees := rfl

theorem set_next_runs_same (m : Mem α) (p v : Nat) :
    (m.set_next p v).runs p = { m.runs p with next := v } := by
  simp [Mem.set_next]

theorem set_next_runs_other (m : Mem α) {p a : Nat} (v : Nat) (h : a ≠ p) :
    (m.set_next p v).runs a = m.runs a := by
  simp [Mem.set_next, Function.update_noteq h]

theorem set_next_level (m : Mem α) (p v a : Nat) :
    ((m.set_next p v).runs a).level = (m.runs a).level := by
  by_cases h : a = p
  · subst h; simp [set_next_runs_same]
  · rw [set_next_runs_other m v h]

theorem set_next_payload (m : Mem α) (p v a : Nat) :
    ((m.set_next p v).runs a).payload = (m.runs a).payload := by
  by_cases h : a = p
  · subst h; simp [set_next_runs_same]
  · rw [set_next_runs_other m v h]

theorem set_range_ranges_same (m : Mem α) (p : Nat) (r : range_t) :
    (m.set_range p r).ranges p = r := by
  simp [Mem.set_range]

theorem set_range_ranges_other (m : Mem α) {p a : Nat} (r : range_t) (h : a ≠ p) :
    (m.set_range p r).ranges a = m.ranges a := by
  simp [Mem.set_range, Function.update_noteq h]

theorem load_run_ok (m : Mem α) {p : Nat} (h : p ≠ 0) : m.load_run p = .ok (m.runs p) := by
  simp [Mem.load_run, h]

theorem store_next_ok (m : Mem α) {p : Nat} (v : Nat) (h : p ≠ 0) :
    m.store_next p v = .ok (m.set_next p v) := by
  simp [Mem.store_next, h]

theorem load_range_ok (m : Mem α) {p : Nat} (h : p ≠ 0) (hl : p ∈ m.live) :
    m.load_range p = .ok (m.ranges p) := by
  simp [Mem.load_range, h, hl]

theorem store_range_ok (m : Mem α) {p : Nat} (r : range_t) (h : p ≠ 0) (hl : p ∈ m.live) :
    m.store_range p r = .ok (m.set_range p r) := by
  simp [Mem.store_range, h, hl]

theorem store_level_ok (m : Mem α) {p : Nat} (v : Int) (h : p ≠ 0) (hl : p ∈ m.live) :
    m.store_level p v = .ok (m.set_range p { m.ranges p with level := v }) := by
  simp [Mem.store_level, load_range_ok m h hl, store_range_ok m _ h hl, bind, Except.bind]

theorem store_left_ok (m : Mem α) {p : Nat} (v : Nat) (h : p ≠ 0) (hl : p ∈ m.live) :
    m.store_left p v = .ok (m.set_range p { m.ranges p with left := v }) := by
  simp [Mem.store_left, load_range_ok m h hl, store_range_ok m _ h hl, bind, Except.bind]

theorem store_right_ok (m : Mem α) {p : Nat} (v : Nat) (h : p ≠ 0) (hl : p ∈ m.live) :
    m.store_right p v = .ok (m.set_range p { m.ranges p with right := v }) := by
  simp [Mem.store_right, load_range_ok m h hl, store_range_ok m _ h hl, bind, Except.bind]

theorem store_previous_ok (m : Mem α) {p : Nat} (v : Nat) (h : p ≠ 0) (hl : p ∈ m.live) :
    m.store_previous p v = .ok (m.set_range p { m.ranges p with previous := v }) := by
  simp [Mem.store_previous, load_range_ok m h hl, store_range_ok m _ h hl, bind, Except.bind]

theorem free_ok (m : Mem α) {p : Nat} (h : p ≠ 0) (hl : p ∈ m.live) :
    free m p = .ok { m with live := m.live.erase p, frees := m.frees + 1 } := by
  simp [free, h, hl]

theorem lt_fresh (live : List Nat) : ∀ a ∈ live, a < fresh live := by
  induction live with
  | nil => simp
  | cons b l ih =>
    intro a ha
    simp only [fresh, List.foldr_cons] at ih ⊢
    rcases List.mem_cons.1 ha with rfl | h
    · omega
    · have := ih a h
      omega

theorem fresh_not_mem (live : List Nat) : fresh live ∉ live := fun h =>
  Nat.lt_irrefl _ (lt_fresh live _ h)

theorem fresh_ne_zero (live : List Nat) : fresh live ≠ 0 := by
  simp [fresh]

theorem malloc_ok (m : Mem α) (h : m.live.length < m.limit) :
    malloc m =
      (fresh m.live, { m with live := fresh m.live :: m.live, mallocs := m.mallocs + 1 }) := by
  simp [malloc, h]

/-! ## Lists of runs in memory -/

theorem Linked.of_cons {runs : Nat → run_t α} {a : Nat} {l : List Nat}
    (h : Linked runs (a :: l)) : Linked runs l := by
  cases l with
  | nil => trivial
  | cons b l => exact h.2

theorem Linked.append {runs : Nat → run_t α} : ∀ {s t : List Nat}, Linked runs s →
    Linked runs t → (∀ x ∈ s.getLast?, ∀ y ∈ t.head?, (runs x).next = y) →
    Linked runs (s ++ t)
  | [], _, _, ht, _ => by simpa using ht
  | [a], [], _, _, _ => by simp [Linked]
  | [a], b :: t, _, ht, h => by
    refine ⟨h a (by simp) b (by simp), ht⟩
  | a :: b :: s, t, hs, ht, h => by
    refine ⟨hs.1, ?_⟩
    have := Linked.append (s := b :: s) (t := t) hs.2 ht (by simpa using h)
    simpa using this

theorem Linked.congr_next {runs runs' : Nat → run_t α} : ∀ {s : List Nat}, Linked runs s →
    (∀ a ∈ s.dropLast, (runs' a).next = (runs a).next) → Linked runs' s
  | [], _, _ => trivial
  | [_], _, _ => trivial
  | a :: b :: s, hs, h => by
    refine ⟨?_, Linked.congr_next (s := b :: s) hs.2 ?_⟩
    · rw [h a (by simp)]; exact hs.1
    · intro x hx
      exact h x (by simp [List.dropLast] at hx ⊢; right; exact hx)

theorem Linked.isList {runs : Nat → run_t α} {q : Nat} : ∀ {s : List Nat} {p r : Nat},
    Linked runs s → s.head? = some p → s.getLast? = some r → (∀ a ∈ s, a ≠ 0) →
    (runs r).next = q → IsList runs p s q
  | [], _, _, _, hp, _, _, _ => by simp at hp
  | [a], p, r, _, hp, hr, hz, hq => by
    simp at hp hr
    subst hp; subst hr
    exact ⟨rfl, hz _ (by simp), hq⟩
  | a :: b :: s, p, r, hs, hp, hr, hz, hq => by
    simp at hp
    subst hp
    refine ⟨rfl, hz _ (by simp), ?_⟩
    refine Linked.isList (s := b :: s) hs.2 (by simp [hs.1]) (by simpa using hr)
      (fun x hx => hz x (List.mem_cons_of_mem _ hx)) hq

theorem IsList.congr_runs {runs runs' : Nat → run_t α} : ∀ {s : List Nat} {p q : Nat},
    IsList runs p s q → (∀ a ∈ s, (runs' a).next = (runs a).next) → IsList runs' p s q
  | [], _, _, h, _ => h
  | a :: s, p, q, h, hc => by
    refine ⟨h.1, h.2.1, ?_⟩
    rw [hc a (by simp)]
    exact IsList.congr_runs h.2.2 (fun x hx => hc x (List.mem_cons_of_mem _ hx))

theorem IsList.ne_zero {runs : Nat → run_t α} : ∀ {s : List Nat} {p q : Nat},
    IsList runs p s q → ∀ a ∈ s, a ≠ 0
  | [], _, _, _ => by simp
  | a :: s, p, q, h => by
    intro x hx
    rcases List.mem_cons.1 hx with rfl | hx
    · exact h.2.1
    · exact IsList.ne_zero h.2.2 x hx

theorem IsList.unique {runs : Nat → run_t α} : ∀ {s t : List Nat} {p : Nat},
    IsList runs p s 0 → IsList runs p t 0 → s = t
  | [], [], _, _, _ => rfl
  | [], b :: t, p, hs, ht => by
    have h1 : p = 0 := hs
    exact absurd (ht.1 ▸ h1) ht.2.1
  | a :: s, [], p, hs, ht => by
    have h1 : p = 0 := ht
    exact absurd (hs.1 ▸ h1) hs.2.1
  | a :: s, b :: t, p, hs, ht => by
    have hab : a = b := hs.1.symm.trans ht.1
    subst hab
    rw [IsList.unique hs.2.2 ht.2.2]

theorem IsList.suffix {runs : Nat → run_t α} : ∀ {s t : List Nat} {p q : Nat},
    IsList runs p (s ++ t) q → ∃ p', IsList runs p' t q
  | [], _, p, _, h => ⟨p, h⟩
  | _ :: s, _, _, _, h => IsList.suffix (s := s) h.2.2

theorem IsList.nodup {runs : Nat → run_t α} : ∀ {s : List Nat} {p : Nat},
    IsList runs p s 0 → s.Nodup
  | [], _, _ => List.nodup_nil
  | a :: s, p, h => by
    refine List.nodup_cons.2 ⟨?_, IsList.nodup h.2.2⟩
    intro ha
    obtain ⟨u, v, rfl⟩ := List.append_of_mem ha
    obtain ⟨p', hp'⟩ := IsList.suffix (s := u) h.2.2
    have h1 : IsList runs a (a :: v) 0 := ⟨rfl, h.2.1, hp'.1 ▸ hp'.2.2⟩
    have h2 : IsList runs a (a :: (u ++ a :: v)) 0 := ⟨rfl, h.2.1, h.2.2⟩
    have := congrArg List.length (IsList.unique h1 h2)
    simp at this
    omega

theorem walk_of_isList {runs : Nat → run_t α} : ∀ {s : List Nat} {p : Nat} (fuel : Nat),
    IsList runs p s 0 → s.length ≤ fuel → walk runs fuel p = some s
  | [], p, fuel, h, _ => by
    have hp : p = 0 := h
    cases fuel <;> simp [walk, hp]
  | a :: s, p, 0, _, hf => by simp at hf
  | a :: s, p, fuel + 1, h, hf => by
    have hp : p = a := h.1
    subst hp
    simp [walk, h.2.1, walk_of_isList fuel h.2.2 (by simpa using hf)]

theorem merge_eval (m : Mem α) {range : Nat} (h0 : range ≠ 0) (hl : range ∈ m.live)
    (hp0 : (m.ranges range).previous ≠ 0) (hpl : (m.ranges range).previous ∈ m.live)
    (hlt : (m.ranges (m.ranges range).previous).level < (m.ranges range).level)
    (hx : (m.ranges (m.ranges range).previous).right ≠ 0) :
    merge_range_with_previous range m = .ok ((m.ranges range).previous, merged m range) := by
  simp [merge_range_with_previous, Mem.load_range, Mem.store_next, Mem.store_left,
    Mem.store_right, Mem.store_range, free, c_assert, c_mod, bind, Except.bind, h0, hl, hp0,
    hpl, hlt, hx, pure, Except.pure, merged, Mem.set_range, Mem.set_next]

/-! ## The range stack -/

theorem mem_concat {a : Nat} : ∀ {s : List Frame}, a ∈ concat s ↔ ∃ f ∈ s, a ∈ f.seg
  | [] => by simp [concat]
  | f :: rest => by
    simp only [concat, List.mem_append, mem_concat (s := rest), List.mem_cons]
    constructor
    · rintro (⟨h, hh, ha⟩ | ha)
      · exact ⟨h, Or.inr hh, ha⟩
      · exact ⟨f, Or.inl rfl, ha⟩
    · rintro ⟨h, rfl | hh, ha⟩
      · exact Or.inr ha
      · exact Or.inl ⟨h, hh, ha⟩

theorem Rep.transfer {m m' : Mem α} : ∀ {stk : List Frame} {p : Nat}, Rep m p stk →
    (∀ f ∈ stk, f.addr ∈ m.live → f.addr ∈ m'.live ∧ m'.ranges f.addr = m.ranges f.addr ∧
      (Linked m.runs f.seg → Linked m'.runs f.seg)) →
    Rep m' p stk
  | [], _, h, _ => h
  | f :: rest, p, h, hc => by
    obtain ⟨h1, h2, h3, h4, h5, h6, h7, h8⟩ := h
    subst h1
    obtain ⟨c1, c2, c3⟩ := hc f (by simp) h3
    refine ⟨rfl, h2, c1, ?_, ?_, ?_, c3 h7, ?_⟩
    · rw [c2]; exact h4
    · rw [c2]; exact h5
    · rw [c2]; exact h6
    · rw [c2]
      exact Rep.transfer h8 (fun g hg => hc g (List.mem_cons_of_mem _ hg))

theorem Rep.seg_ne_nil {m : Mem α} : ∀ {stk : List Frame} {p : Nat}, Rep m p stk →
    ∀ f ∈ stk, f.seg ≠ []
  | [], _, _ => by simp
  | f :: rest, p, h => by
    intro g hg
    rcases List.mem_cons.1 hg with rfl | hg
    · intro he
      have := h.2.2.2.2.1
      simp [he] at this
    · exact Rep.seg_ne_nil h.2.2.2.2.2.2.2 g hg

theorem Rep.addr_mem {m : Mem α} : ∀ {stk : List Frame} {p : Nat}, Rep m p stk →
    ∀ f ∈ stk, f.addr ∈ m.live ∧ f.addr ≠ 0
  | [], _, _ => by simp
  | f :: rest, p, h => by
    intro g hg
    rcases List.mem_cons.1 hg with rfl | hg
    · exact ⟨h.1 ▸ h.2.2.1, h.1 ▸ h.2.1⟩
    · exact Rep.addr_mem h.2.2.2.2.2.2.2 g hg

theorem not_mem_dropLast {s : List Nat} {x : Nat} (hn : s.Nodup) (hx : s.getLast? = some x) :
    x ∉ s.dropLast := by
  have h := List.dropLast_append_getLast? x hx
  rw [← h] at hn
  intro hm
  exact (List.disjoint_of_nodup_append hn) hm (by simp)

theorem Linked.set_next {m : Mem α} {s : List Nat} {x : Nat} (v : Nat)
    (h : Linked m.runs s) (hx : x ∉ s.dropLast) : Linked (m.set_next x v).runs s := by
  refine Linked.congr_next h (fun a ha => ?_)
  have hne : a ≠ x := fun e => hx (by rw [← e]; exact ha)
  rw [set_next_runs_other m v hne]

theorem merge_ok {m : Mem α} {range : Nat} {f g : Frame} {rest : List Frame} {L : List Nat}
    (hrep : Rep m range (f :: g :: rest)) (hlt : g.level < f.level)
    (hnd : (concat (f :: g :: rest)).Nodup) (hz : ∀ a ∈ concat (f :: g :: rest), a ≠ 0)
    (had : ((f :: g :: rest).map Frame.addr).Nodup)
    (hlive : m.live = (f :: g :: rest).map Frame.addr ++ L) :
    ∃ m', merge_range_with_previous range m = .ok (g.addr, m') ∧
      Rep m' g.addr (⟨g.addr, g.level, g.seg ++ f.seg⟩ :: rest) ∧
      m'.live = (g :: rest).map Frame.addr ++ L ∧
      m'.limit = m.limit ∧ m'.mallocs = m.mallocs ∧ m'.frees = m.frees + 1 ∧
      (∀ a, (m'.runs a).level = (m.runs a).level ∧ (m'.runs a).payload = (m.runs a).payload) ∧
      (∀ a, a ∉ concat (f :: g :: rest) → m'.runs a = m.runs a) := by
  obtain ⟨f1, f2, f3, f4, f5, f6, f7, g1, g2, g3, g4, g5, g6, g7, g8⟩ := hrep
  subst f1
  have e2 := g2
  have e3 := g3
  rw [g1] at g2 g3 g4 g5 g6 g8
  simp only [concat] at hnd hz
  simp only [List.map_cons, List.nodup_cons, List.mem_cons, not_or] at had
  have hxg : (m.ranges g.addr).right ∈ g.seg := List.mem_of_mem_getLast? g6
  have hx0 : (m.ranges g.addr).right ≠ 0 := hz _ (by simp [hxg])
  have hndg : g.seg.Nodup := (List.nodup_append.1 (List.nodup_append.1 hnd).1).2.1
  have hxf : (m.ranges g.addr).right ∉ f.seg := fun h =>
    (List.disjoint_of_nodup_append hnd) (List.mem_append_right _ hxg) h
  have hxr : (m.ranges g.addr).right ∉ concat rest := fun h =>
    (List.disjoint_of_nodup_append (List.nodup_append.1 hnd).1) h hxg
  have hruns : (merged m f.addr).runs =
      (m.set_next (m.ranges g.addr).right (m.ranges f.addr).left).runs := by
    simp [merged, g1]
  refine ⟨merged m f.addr, ?_, ?_, ?_, rfl, rfl, rfl, ?_, ?_⟩
  · rw [merge_eval m f2 f3 e2 e3 (by rw [g1, g4, f4]; exact hlt)
      (by rw [g1]; exact hx0), g1]
  · have hlg : g.addr ∈ (merged m f.addr).live :=
      (List.mem_erase_of_ne (Ne.symm had.1.1)).2 g3
    have hrg : (merged m f.addr).ranges g.addr =
        ⟨(m.ranges g.addr).level, (m.ranges g.addr).left, (m.ranges f.addr).right,
          (m.ranges g.addr).previous⟩ := by
      simp [merged, g1]
    refine ⟨rfl, g2, hlg, ?_, ?_, ?_, ?_, ?_⟩
    · rw [hrg]; exact g4
    · rw [hrg, List.head?_append]; simp [g5]
    · rw [hrg, List.getLast?_append]; simp [f6]
    · rw [hruns]
      refine Linked.append ?_ ?_ ?_
      · exact Linked.set_next _ g7 (not_mem_dropLast hndg g6)
      · exact Linked.set_next _ f7 (fun h => hxf (List.mem_of_mem_dropLast h))
      · intro x hx y hy
        rw [g6] at hx
        rw [f5] at hy
        simp only [Option.mem_def, Option.some.injEq] at hx hy
        subst hx; subst hy
        simp [set_next_runs_same]
    · rw [hrg]
      refine Rep.transfer g8 (fun h hh hhl => ⟨?_, ?_, ?_⟩)
      · refine (List.mem_erase_of_ne ?_).2 hhl
        intro e
        exact had.1.2 (e ▸ List.mem_map_of_mem _ hh)
      · have : h.addr ≠ g.addr := fun e => had.2.1 (e ▸ List.mem_map_of_mem _ hh)
        simp [merged, g1, Function.update_noteq this]
      · intro hl
        rw [hruns]
        refine Linked.set_next _ hl (fun hm => hxr ?_)
        exact mem_concat.2 ⟨h, hh, List.mem_of_mem_dropLast hm⟩
  · simp [merged, List.erase_cons_head, hlive]
  · intro a
    rw [hruns]
    exact ⟨set_next_level m _ _ a, set_next_payload m _ _ a⟩
  · intro a ha
    rw [hruns]
    refine set_next_runs_other m _ (fun e => ha ?_)
    simp [concat, e, hxg]

theorem update_next_level (runs : Nat → run_t α) (p v a : Nat) :
    (Function.update runs p { runs p with next := v } a).level = (runs a).level := by
  by_cases h : a = p
  · subst h; simp
  · rw [Function.update_noteq h]

theorem attach_test_eval {m : Mem α} {range run : Nat} {stk : List Frame}
    (hrep : Rep m range stk) (hrun : run ≠ 0) :
    attach_test range run m = .ok (attaches (m.runs run).level stk) := by
  match stk, hrep with
  | [], h =>
    have h0 : range = 0 := h
    simp [attach_test, h0, attaches, pure, Except.pure]
  | f :: rest, ⟨f1, f2, f3, f4, _⟩ =>
    simp [attach_test, Mem.load_range, Mem.load_run, bind, Except.bind, f2, f3, f4, hrun,
      attaches, pure, Except.pure]

theorem attach_eval (m : Mem α) {range run : Nat} (h0 : range ≠ 0) (hl : range ∈ m.live)
    (hrun : run ≠ 0) (hx : (m.ranges range).right ≠ 0) :
    attach range run m = .ok (attached m range run) := by
  simp [attach, Mem.load_range, Mem.load_run, Mem.store_next, Mem.store_right,
    Mem.store_level, Mem.store_range, c_mod, bind, Except.bind, h0, hl, hrun, hx,
    attached, Mem.set_range, Mem.set_next, update_next_level]

theorem push_eval (m : Mem α) (range : Nat) {run : Nat} (hrun : run ≠ 0)
    (hroom : m.live.length < m.limit) :
    push range run m = .ok (fresh m.live, pushed m range run) := by
  have hf := fresh_ne_zero m.live
  simp only [push, malloc_ok m hroom]
  simp [Mem.load_range, Mem.load_run, Mem.store_left, Mem.store_right,
      Mem.store_level, Mem.store_previous, Mem.store_range, bind, Except.bind, hrun,
      hf, pure, Except.pure, pushed, Mem.set_range]

theorem flatten_test_eval {m : Mem α} {range run : Nat} {stk : List Frame}
    (hrep : Rep m range stk) (hrun : run ≠ 0) :
    flatten_test range run m = .ok (unsettled (m.runs run).level stk) := by
  match stk, hrep with
  | [], h =>
    have h0 : range = 0 := h
    simp [flatten_test, h0, unsettled, pure, Except.pure]
  | [f], ⟨f1, f2, f3, f4, _, _, _, g⟩ =>
    have g0 : (m.ranges range).previous = 0 := g
    simp [flatten_test, Mem.load_range, Mem.load_run, bind, Except.bind, f2, f3, hrun, g0,
      unsettled, pure, Except.pure]
  | f :: g :: rest, ⟨f1, f2, f3, f4, _, _, _, g1, g2, g3, g4, _⟩ =>
    by_cases c1 : (m.ranges range).level > (m.runs run).level
    · have c1' : (m.runs run).level < f.level := f4 ▸ c1
      simp [flatten_test, Mem.load_range, Mem.load_run, bind, Except.bind, f2, f3, hrun, g2, g3,
        g4, c1, c1', unsettled, pure, Except.pure]
    · have c1' : ¬ (m.runs run).level < f.level := f4 ▸ c1
      simp [flatten_test, Mem.load_range, Mem.load_run, bind, Except.bind, f2, f3, hrun,
        c1, c1', unsettled, pure, Except.pure]

theorem Increasing.below {f : Frame} {stk : List Frame} (h : Increasing (f :: stk)) :
    Increasing stk := by
  cases stk with
  | nil => trivial
  | cons g rest => exact h.2

theorem Increasing.relevel {f : Frame} {stk : List Frame} (f' : Frame)
    (h : Increasing (f :: stk)) (hl : ∀ g ∈ stk.head?, g.level < f'.level) :
    Increasing (f' :: stk) := by
  cases stk with
  | nil => trivial
  | cons g rest => exact ⟨hl g (by simp), h.2⟩

theorem length_le_concat : ∀ {s : List Frame}, (∀ f ∈ s, f.seg ≠ []) →
    s.length ≤ (concat s).length
  | [], _ => by simp
  | f :: rest, h => by
    have h1 := length_le_concat (s := rest) (fun g hg => h g (List.mem_cons_of_mem _ hg))
    have h2 : 0 < f.seg.length := List.length_pos.2 (h f (by simp))
    simp only [concat, List.length_append, List.length_cons]
    omega

theorem StackInv.length_le {m0 m : Mem α} {range : Nat} {stk : List Frame} {ps : List Nat}
    (h : StackInv m0 m range stk ps) : stk.length ≤ ps.length := by
  have := length_le_concat (Rep.seg_ne_nil h.rep)
  rwa [h.cat] at this

theorem StackInv.merge {m0 m : Mem α} {range : Nat} {f g : Frame} {rest : List Frame}
    {ps : List Nat} (h : StackInv m0 m range (f :: g :: rest) ps) (hnd : ps.Nodup)
    (hz : ∀ a ∈ ps, a ≠ 0) :
    ∃ m', merge_range_with_previous range m = .ok (g.addr, m') ∧
      StackInv m0 m' g.addr (⟨g.addr, g.level, g.seg ++ f.seg⟩ :: rest) ps := by
  obtain ⟨m', h1, h2, h3, h4, h5, h6, h7, h8⟩ :=
    merge_ok (L := m0.live) h.rep h.incr.1 (h.cat ▸ hnd) (h.cat ▸ hz) h.addrs h.live
  refine ⟨m', h1, ⟨h2, ?_, ?_, ?_, h3, h4.trans h.limit, ?_, ?_, ?_, h5 ▸ h.pushes,
    h6 ▸ Nat.le_succ_of_le h.merges⟩⟩
  · rw [← h.cat]; simp [concat]
  · refine Increasing.relevel _ (Increasing.below h.incr) (fun x hx => ?_)
    cases rest with
    | nil => simp at hx
    | cons r rest =>
      simp only [List.head?_cons, Option.mem_def, Option.some.injEq] at hx
      subst hx
      exact h.incr.2.1
  · exact (List.nodup_cons.1 h.addrs).2
  · have := h.count
    simp only [List.length_cons] at this ⊢
    omega
  · intro a
    exact ⟨(h7 a).1.trans (h.content a).1, (h7 a).2.trans (h.content a).2⟩
  · intro a ha
    rw [h8 a (h.cat ▸ ha), h.frame a ha]

theorem flatten_ok {m0 : Mem α} {ps : List Nat} (run : Nat) (hnd : ps.Nodup)
    (hz : ∀ a ∈ ps, a ≠ 0) (hrun : run ≠ 0) :
    ∀ (fuel : Nat) (stk : List Frame) (m : Mem α) (range : Nat),
      StackInv m0 m range stk ps → stk.length < fuel →
      ∃ range' m' stk', flatten fuel range run m = .ok (range', m') ∧
        StackInv m0 m' range' stk' ps ∧ stk'.length ≤ stk.length ∧
        unsettled (m0.runs run).level stk' = false
  | 0, _, _, _, _, hf => by simp at hf
  | fuel + 1, stk, m, range, h, hf => by
    have htest := flatten_test_eval h.rep hrun
    rw [(h.content run).1] at htest
    cases hu : unsettled (m0.runs run).level stk with
    | false =>
      refine ⟨range, m, stk, ?_, h, le_rfl, hu⟩
      simp [flatten, htest, hu, bind, Except.bind, pure, Except.pure]
    | true =>
      match stk, h, hf, htest, hu with
      | [], _, _, _, hu => simp [unsettled] at hu
      | [_], _, _, _, hu => simp [unsettled] at hu
      | f :: g :: rest, h, hf, htest, hu =>
        obtain ⟨m1, e1, h1⟩ := h.merge hnd hz
        obtain ⟨range', m', stk', e2, h2, hl, hs⟩ :=
          flatten_ok run hnd hz hrun fuel _ m1 g.addr h1 (by simp at hf ⊢; omega)
        refine ⟨range', m', stk', ?_, h2, ?_, hs⟩
        · simp [flatten, htest, hu, bind, Except.bind, e1, e2]
        · simp at hl ⊢; omega

theorem StackInv.attach {m0 m : Mem α} {range run : Nat} {f : Frame} {rest : List Frame}
    {ps : List Nat} (h : StackInv m0 m range (f :: rest) ps) (hnd : (ps ++ [run]).Nodup)
    (hz : ∀ a ∈ ps ++ [run], a ≠ 0)
    (hs : unsettled (m0.runs run).level (f :: rest) = false)
    (ha : attaches (m0.runs run).level (f :: rest) = true) :
    ∃ m', attach_or_push range run m = .ok (f.addr, m') ∧
      StackInv m0 m' f.addr (⟨f.addr, (m0.runs run).level, f.seg ++ [run]⟩ :: rest)
        (ps ++ [run]) := by
  have hrun : run ≠ 0 := hz run (by simp)
  have htest := attach_test_eval h.rep hrun
  rw [(h.content run).1, ha] at htest
  have hcat := h.cat
  have hlevel := (h.content run).1
  obtain ⟨f1, f2, f3, f4, f5, f6, f7, f8⟩ := h.rep
  subst f1
  simp only [concat] at hcat
  have hxf : (m.ranges f.addr).right ∈ f.seg := List.mem_of_mem_getLast? f6
  have hxp : (m.ranges f.addr).right ∈ ps := hcat ▸ List.mem_append_right _ hxf
  have hx0 : (m.ranges f.addr).right ≠ 0 := hz _ (List.mem_append_left _ hxp)
  have hps : ps.Nodup := (List.nodup_append.1 hnd).1
  have hndf : f.seg.Nodup := (List.nodup_append.1 (hcat ▸ hps)).2.1
  have hxr : (m.ranges f.addr).right ∉ concat rest := fun hh =>
    (List.disjoint_of_nodup_append (hcat ▸ hps)) hh hxf
  have hruns : (attached m f.addr run).runs = (m.set_next (m.ranges f.addr).right run).runs :=
    rfl
  have hrg : (attached m f.addr run).ranges f.addr =
      ⟨(m0.runs run).level, (m.ranges f.addr).left, run, (m.ranges f.addr).previous⟩ := by
    simp [attached, hlevel]
  have hadd := List.nodup_cons.1 h.addrs
  refine ⟨attached m f.addr run, ?_,
    ⟨?_, ?_, ?_, h.addrs, h.live, h.limit, ?_, ?_, ?_, ?_, h.merges⟩⟩
  · simp [attach_or_push, htest, bind, Except.bind, attach_eval m f2 f3 hrun hx0, pure,
      Except.pure]
  · refine ⟨rfl, f2, f3, ?_, ?_, ?_, ?_, ?_⟩
    · rw [hrg]
    · rw [hrg, List.head?_append]; simp [f5]
    · rw [hrg]; simp
    · rw [hruns]
      refine Linked.append (Linked.set_next _ f7 (not_mem_dropLast hndf f6)) trivial ?_
      intro x hx y hy
      rw [f6] at hx
      simp only [Option.mem_def, Option.some.injEq, List.head?_cons] at hx hy
      subst hx; subst hy
      simp [set_next_runs_same]
    · rw [hrg]
      refine Rep.transfer f8 (fun g hg hgl => ⟨hgl, ?_, ?_⟩)
      · have : g.addr ≠ f.addr := fun e => hadd.1 (e ▸ List.mem_map_of_mem _ hg)
        simp [attached, Function.update_noteq this]
      · intro hl
        rw [hruns]
        refine Linked.set_next _ hl (fun hm => hxr ?_)
        exact mem_concat.2 ⟨g, hg, List.mem_of_mem_dropLast hm⟩
  · simp [concat, ← hcat]
  · refine Increasing.relevel _ h.incr (fun g hg => ?_)
    cases rest with
    | nil => simp at hg
    | cons r rest =>
      simp only [List.head?_cons, Option.mem_def, Option.some.injEq] at hg
      subst hg
      have h1 : r.level < f.level := h.incr.1
      simp only [unsettled, attaches, decide_eq_false_iff_not, decide_eq_true_eq, not_and,
        ge_iff_le, gt_iff_lt, not_le] at hs ha
      show r.level < (m0.runs run).level
      rcases lt_or_eq_of_le ha with hlt | heq
      · exact hs hlt
      · rw [heq]; exact h1
  · exact h.count
  · intro a
    rw [hruns]
    exact ⟨(set_next_level m _ _ a).trans (h.content a).1,
      (set_next_payload m _ _ a).trans (h.content a).2⟩
  · intro a ha'
    rw [hruns]
    have hap : a ∉ ps := fun hh => ha' (List.mem_append_left _ hh)
    have hne : a ≠ (m.ranges f.addr).right := fun e => hap (by rw [e]; exact hxp)
    rw [set_next_runs_other m _ hne, h.frame a hap]
  · have := h.pushes
    simp only [attached, List.length_append, List.length_singleton]
    omega

theorem StackInv.push {m0 m : Mem α} {range run : Nat} {stk : List Frame}
    {ps : List Nat} (h : StackInv m0 m range stk ps) (hz : ∀ a ∈ ps ++ [run], a ≠ 0)
    (hroom : stk.length + m0.live.length < m0.limit)
    (ha : attaches (m0.runs run).level stk = false) :
    ∃ m', attach_or_push range run m = .ok (fresh m.live, m') ∧
      StackInv m0 m' (fresh m.live) (⟨fresh m.live, (m0.runs run).level, [run]⟩ :: stk)
        (ps ++ [run]) := by
  have hrun : run ≠ 0 := hz run (by simp)
  have htest := attach_test_eval h.rep hrun
  have hlevel := (h.content run).1
  rw [hlevel, ha] at htest
  have hlen : m.live.length < m.limit := by
    rw [h.live, h.limit]; simp; omega
  have hfr : fresh m.live ∉ stk.map Frame.addr := fun hh =>
    fresh_not_mem m.live (by rw [h.live] at hh ⊢; exact List.mem_append_left _ hh)
  have hrg : (pushed m range run).ranges (fresh m.live) =
      ⟨(m0.runs run).level, run, run, range⟩ := by
    simp [pushed, hlevel]
  refine ⟨pushed m range run, ?_,
    ⟨?_, ?_, ?_, ?_, ?_, h.limit, ?_, h.content, ?_, ?_, h.merges⟩⟩
  · simp [attach_or_push, htest, bind, Except.bind, push_eval m range hrun hlen]
  · refine ⟨rfl, fresh_ne_zero _, List.mem_cons_self _ _, ?_, ?_, ?_, trivial, ?_⟩
    · rw [hrg]
    · rw [hrg]; rfl
    · rw [hrg]; rfl
    · rw [hrg]
      refine Rep.transfer h.rep (fun g hg hgl => ⟨List.mem_cons_of_mem _ hgl, ?_, fun hl => hl⟩)
      have : g.addr ≠ fresh m.live := fun e => fresh_not_mem m.live (e ▸ hgl)
      simp [pushed, Function.update_noteq this]
  · simp [concat, h.cat]
  · cases stk with
    | nil => trivial
    | cons f rest =>
      refine ⟨?_, h.incr⟩
      simp only [attaches, decide_eq_false_iff_not, ge_iff_le, not_le] at ha
      exact ha
  · exact List.nodup_cons.2 ⟨hfr, h.addrs⟩
  · simp [pushed, h.live]
  · have := h.count
    simp only [pushed, List.length_cons]
    omega
  · intro a ha'
    exact h.frame a (fun hh => ha' (List.mem_append_left _ hh))
  · have := h.pushes
    simp only [pushed, List.length_append, List.length_singleton]
    omega

theorem StackInv.step {m0 m : Mem α} {range run : Nat} {stk : List Frame}
    {ps : List Nat} (h : StackInv m0 m range stk ps) (hnd : (ps ++ [run]).Nodup)
    (hz : ∀ a ∈ ps ++ [run], a ≠ 0) (hroom : stk.length + m0.live.length < m0.limit)
    (hs : unsettled (m0.runs run).level stk = false) :
    ∃ range' m' stk', attach_or_push range run m = .ok (range', m') ∧
      StackInv m0 m' range' stk' (ps ++ [run]) ∧ stk'.length ≤ stk.length + 1 := by
  cases ha : attaches (m0.runs run).level stk with
  | false =>
    obtain ⟨m', e, h'⟩ := h.push hz hroom ha
    exact ⟨_, m', _, e, h', by simp⟩
  | true =>
    match stk, h, hs, ha with
    | [], _, _, ha => simp [attaches] at ha
    | f :: rest, h, hs, ha =>
      obtain ⟨m', e, h'⟩ := h.attach hnd hz hs ha
      exact ⟨_, m', _, e, h', by simp⟩

theorem sweep_ok {m0 : Mem α} {as : List Nat} (hnd : as.Nodup) (hz : ∀ a ∈ as, a ≠ 0)
    {gas : Nat} (hgas : as.length < gas) :
    ∀ (rs ps : List Nat) (run range : Nat) (m : Mem α) (stk : List Frame) (fuel : Nat),
      ps ++ rs = as → IsList m0.runs run rs 0 → StackInv m0 m range stk ps →
      stk.length + m0.live.length + rs.length ≤ m0.limit → rs.length < fuel →
      ∃ range' m' stk', sweep gas fuel run range m = .ok (range', m') ∧
        StackInv m0 m' range' stk' as
  | _, _, _, _, _, _, 0, _, _, _, _, hf => by simp at hf
  | [], ps, run, range, m, stk, fuel + 1, hps, hl, h, _, _ => by
    have h0 : run = 0 := hl
    have hp : ps = as := by simpa using hps
    exact ⟨range, m, stk, by simp [sweep, h0], hp ▸ h⟩
  | r :: rs, ps, run, range, m, stk, fuel + 1, hps, hl, h, hroom, hf => by
    obtain ⟨h1, h2, h3⟩ := hl
    subst h1
    have hsplit : (ps ++ [run]) ++ rs = as := by simpa using hps
    have hnd1 : (ps ++ [run]).Nodup := (List.nodup_append.1 (hsplit ▸ hnd)).1
    have hz1 : ∀ a ∈ ps ++ [run], a ≠ 0 := fun a ha =>
      hz a (hsplit ▸ List.mem_append_left _ ha)
    have hnp : run ∉ ps := fun hh =>
      (List.disjoint_of_nodup_append hnd1) hh (by simp)
    have hlen : ps.length + (rs.length + 1) = as.length := by
      rw [← hps]; simp
    have hsl := h.length_le
    obtain ⟨range1, m1, stk1, e1, i1, l1, s1⟩ :=
      flatten_ok run (List.nodup_append.1 hnd1).1
        (fun a ha => hz1 a (List.mem_append_left _ ha)) h2 gas stk m range h (by omega)
    simp only [List.length_cons] at hroom hf
    obtain ⟨range2, m2, stk2, e2, i2, l2⟩ := i1.step hnd1 hz1 (by omega) s1
    obtain ⟨range', m', stk', e3, i3⟩ :=
      sweep_ok hnd hz hgas rs (ps ++ [run]) (m0.runs run).next range2 m2 stk2 fuel hsplit h3
        i2 (by omega) (by omega)
    refine ⟨range', m', stk', ?_, i3⟩
    simp [sweep, h2, load_run_ok m h2, bind, Except.bind, e1, e2, h.frame run hnp, e3]

theorem unwind_ok {m0 : Mem α} {ps : List Nat} (hnd : ps.Nodup) (hz : ∀ a ∈ ps, a ≠ 0) :
    ∀ (fuel : Nat) (stk : List Frame) (m : Mem α) (range : Nat),
      StackInv m0 m range stk ps → stk ≠ [] → stk.length ≤ fuel →
      ∃ m' f, unwind fuel range m = .ok (f.addr, m') ∧ StackInv m0 m' f.addr [f] ps
  | _, [], _, _, _, hne, _ => absurd rfl hne
  | 0, _ :: _, _, _, _, _, hf => by simp at hf
  | fuel + 1, [f], m, range, h, _, _ => by
    obtain ⟨f1, f2, f3, _, _, _, _, f8⟩ := h.rep
    have f8' : (m.ranges range).previous = 0 := f8
    subst f1
    refine ⟨m, f, ?_, h⟩
    simp [unwind, load_range_ok m f2 f3, bind, Except.bind, f8', pure, Except.pure]
  | fuel + 1, f :: g :: rest, m, range, h, _, hf => by
    obtain ⟨f1, f2, f3, _, _, _, _, g1, g2, _⟩ := h.rep
    obtain ⟨m1, e1, h1⟩ := h.merge hnd hz
    obtain ⟨m', f', e2, h2⟩ := unwind_ok hnd hz fuel _ m1 g.addr h1 (by simp)
      (by simp at hf ⊢; omega)
    refine ⟨m', f', ?_, h2⟩
    simp [unwind, load_range_ok m f2 f3, bind, Except.bind, g2, e1, e2]

theorem StackInv.init (m : Mem α) : StackInv m m 0 [] [] where
  rep := rfl
  cat := rfl
  incr := trivial
  addrs := List.nodup_nil
  live := rfl
  limit := rfl
  count := rfl
  content := fun _ => ⟨rfl, rfl⟩
  frame := fun _ _ => rfl
  pushes := Nat.le_add_right _ _
  merges := Nat.le_refl _

/-- The whole call on a well-formed line: what it returns and the memory it leaves. -/
theorem linear_reorder_spec {m : Mem α} {line : Nat} {as : List Nat} {fuel : Nat}
    (hl : IsList m.runs line as 0) (hne : as ≠ []) (hfuel : as.length < fuel)
    (hroom : m.live.length + as.length ≤ m.limit) :
    ∃ m' r, linear_reorder fuel line m = .ok (line, m') ∧ IsList m'.runs line as 0 ∧
      m'.live = r :: m.live ∧ m'.limit = m.limit ∧
      m'.mallocs + m.frees = m.mallocs + m'.frees + 1 ∧
      m'.mallocs ≤ m.mallocs + as.length ∧
      (∀ a, (m'.runs a).level = (m.runs a).level ∧ (m'.runs a).payload = (m.runs a).payload) ∧
      (∀ a, a ∉ as → m'.runs a = m.runs a) := by
  have hnd := hl.nodup
  have hz := hl.ne_zero
  obtain ⟨range1, m1, stk1, e1, i1⟩ :=
    sweep_ok hnd hz hfuel as [] line 0 m [] fuel rfl hl (StackInv.init m)
      (by simp; omega) hfuel
  have hs1 : stk1 ≠ [] := by
    intro e
    have := i1.cat
    rw [e] at this
    exact hne this.symm
  have hr1 : range1 ≠ 0 := by
    cases stk1 with
    | nil => exact absurd rfl hs1
    | cons f rest => exact i1.rep.2.1
  obtain ⟨m2, f, e2, i2⟩ := unwind_ok hnd hz fuel stk1 m1 range1 i1 hs1
    (by have := i1.length_le; omega)
  obtain ⟨_, f2, f3, _, f5, f6, f7, _⟩ := i2.rep
  have hcat : f.seg = as := by simpa [concat] using i2.cat
  rw [hcat] at f5 f6 f7
  have hx : (m2.ranges f.addr).right ∈ as := List.mem_of_mem_getLast? f6
  have hx0 : (m2.ranges f.addr).right ≠ 0 := hz _ hx
  have hline : (m2.ranges f.addr).left = line := by
    cases as with
    | nil => exact absurd rfl hne
    | cons a as =>
      simp only [List.head?_cons, Option.some.injEq] at f5
      rw [← f5]; exact hl.1.symm
  have hline0 : line ≠ 0 := by
    cases as with
    | nil => exact absurd rfl hne
    | cons a as => rw [hl.1]; exact hl.2.1
  have hlive : m2.live = f.addr :: m.live := by simpa using i2.live
  refine ⟨m2.set_next (m2.ranges f.addr).right 0, f.addr, ?_, ?_, hlive, i2.limit, ?_,
    i2.pushes, ?_, ?_⟩
  · simp [linear_reorder, hline0, e1, bind, Except.bind, c_assert, hr1, e2,
      load_range_ok m2 f2 f3, store_next_ok m2 0 hx0, Mem.load_range, f2, f3, pure,
      Except.pure, hline]
  · refine Linked.isList (r := (m2.ranges f.addr).right) ?_ (hline ▸ f5) f6 hz
      (by rw [set_next_runs_same])
    exact Linked.set_next _ f7 (not_mem_dropLast hnd f6)
  · have := i2.count
    simp only [List.length_cons, List.length_nil, set_next_mallocs, set_next_frees] at this ⊢
    omega
  · intro a
    exact ⟨(set_next_level m2 _ _ a).trans (i2.content a).1,
      (set_next_payload m2 _ _ a).trans (i2.content a).2⟩
  · intro a ha
    have hne : a ≠ (m2.ranges f.addr).right := fun e => ha (by rw [e]; exact hx)
    rw [set_next_runs_other m2 _ hne, i2.frame a ha]

/-! ## The call as a whole -/

theorem linear_reorder_null (fuel : Nat) (m : Mem α) : linear_reorder fuel 0 m = .ok (0, m) := by
  simp [linear_reorder]

/-- On every well-formed line the call returns the pointer it was given and leaves the
runs linked in the order they had; only `next` members of runs of the line may differ. -/
theorem linear_reorder_order {m : Mem α} {line : Nat} {as : List Nat} {fuel : Nat}
    (hl : IsList m.runs line as 0) (hfuel : as.length < fuel)
    (hroom : m.live.length + as.length ≤ m.limit) :
    ∃ m', linear_reorder fuel line m = .ok (line, m') ∧ IsList m'.runs line as 0 ∧
      (∀ a, (m'.runs a).level = (m.runs a).level ∧ (m'.runs a).payload = (m.runs a).payload) ∧
      (∀ a, a ∉ as → m'.runs a = m.runs a) := by
  cases as with
  | nil =>
    have h0 : line = 0 := hl
    subst h0
    exact ⟨m, linear_reorder_null fuel m, hl, fun _ => ⟨rfl, rfl⟩, fun _ _ => rfl⟩
  | cons a as =>
    obtain ⟨m', _, e, h1, _, _, _, _, h2, h3⟩ :=
      linear_reorder_spec hl (List.cons_ne_nil a as) hfuel hroom
    exact ⟨m', e, h1, h2, h3⟩

theorem push_fail (m : Mem α) (range run : Nat) (hroom : ¬ m.live.length < m.limit) :
    push range run m = .error .null_deref := by
  simp [push, malloc, hroom, Mem.store_right, Mem.load_range, bind, Except.bind]

theorem StackInv.step_safe {m0 m : Mem α} {range run : Nat} {stk : List Frame}
    {ps : List Nat} (h : StackInv m0 m range stk ps) (hnd : (ps ++ [run]).Nodup)
    (hz : ∀ a ∈ ps ++ [run], a ≠ 0)
    (hs : unsettled (m0.runs run).level stk = false) :
    (∃ range' m' stk', attach_or_push range run m = .ok (range', m') ∧
      StackInv m0 m' range' stk' (ps ++ [run])) ∨
    attach_or_push range run m = .error .null_deref := by
  by_cases hroom : stk.length + m0.live.length < m0.limit
  · obtain ⟨r, m', s, e, i, _⟩ := h.step hnd hz hroom hs
    exact Or.inl ⟨r, m', s, e, i⟩
  · cases ha : attaches (m0.runs run).level stk with
    | false =>
      right
      have hrun : run ≠ 0 := hz run (by simp)
      have htest := attach_test_eval h.rep hrun
      rw [(h.content run).1, ha] at htest
      have hlen : ¬ m.live.length < m.limit := by
        rw [h.live, h.limit]; simpa using hroom
      simp [attach_or_push, htest, bind, Except.bind, push_fail m range run hlen]
    | true =>
      match stk, h, hs, ha with
      | [], _, _, ha => simp [attaches] at ha
      | f :: rest, h, hs, ha =>
        obtain ⟨m', e, h'⟩ := h.attach hnd hz hs ha
        exact Or.inl ⟨_, m', _, e, h'⟩

theorem sweep_safe {m0 : Mem α} {as : List Nat} (hnd : as.Nodup) (hz : ∀ a ∈ as, a ≠ 0)
    {gas : Nat} (hgas : as.length < gas) :
    ∀ (rs ps : List Nat) (run range : Nat) (m : Mem α) (stk : List Frame) (fuel : Nat),
      ps ++ rs = as → IsList m0.runs run rs 0 → StackInv m0 m range stk ps →
      rs.length < fuel →
      (∃ range' m' stk', sweep gas fuel run range m = .ok (range', m') ∧
        StackInv m0 m' range' stk' as) ∨
      sweep gas fuel run range m = .error .null_deref
  | _, _, _, _, _, _, 0, _, _, _, hf => by simp at hf
  | [], ps, run, range, m, stk, fuel + 1, hps, hl, h, _ => by
    have h0 : run = 0 := hl
    have hp : ps = as := by simpa using hps
    exact Or.inl ⟨range, m, stk, by simp [sweep, h0], hp ▸ h⟩
  | r :: rs, ps, run, range, m, stk, fuel + 1, hps, hl, h, hf => by
    obtain ⟨h1, h2, h3⟩ := hl
    subst h1
    have hsplit : (ps ++ [run]) ++ rs = as := by simpa using hps
    have hnd1 : (ps ++ [run]).Nodup := (List.nodup_append.1 (hsplit ▸ hnd)).1
    have hz1 : ∀ a ∈ ps ++ [run], a ≠ 0 := fun a ha =>
      hz a (hsplit ▸ List.mem_append_left _ ha)
    have hnp : run ∉ ps := fun hh =>
      (List.disjoint_of_nodup_append hnd1) hh (by simp)
    have hlen : ps.length + (rs.length + 1) = as.length := by
      rw [← hps]; simp
    have hsl := h.length_le
    obtain ⟨range1, m1, stk1, e1, i1, l1, s1⟩ :=
      flatten_ok run (List.nodup_append.1 hnd1).1
        (fun a ha => hz1 a (List.mem_append_left _ ha)) h2 gas stk m range h (by omega)
    simp only [List.length_cons] at hf
    rcases i1.step_safe hnd1 hz1 s1 with ⟨range2, m2, stk2, e2, i2⟩ | e2
    · rcases sweep_safe hnd hz hgas rs (ps ++ [run]) (m0.runs run).next range2 m2 stk2 fuel
        hsplit h3 i2 (by omega) with ⟨range', m', stk', e3, i3⟩ | e3
      · refine Or.inl ⟨range', m', stk', ?_, i3⟩
        simp [sweep, h2, load_run_ok m h2, bind, Except.bind, e1, e2, h.frame run hnp, e3]
      · right
        simp [sweep, h2, load_run_ok m h2, bind, Except.bind, e1, e2, h.frame run hnp, e3]
    · right
      simp [sweep, h2, load_run_ok m h2, bind, Except.bind, e1, e2]

/-- Whatever room the allocator has, a call on a well-formed line returns or stops on the
null pointer a failed `malloc` gave: no assertion fails and no loop runs out of fuel. -/
theorem linear_reorder_safe {m : Mem α} {line : Nat} {as : List Nat} {fuel : Nat}
    (hl : IsList m.runs line as 0) (hfuel : as.length < fuel) :
    (∃ r, linear_reorder fuel line m = .ok r) ∨
    linear_reorder fuel line m = .error .null_deref := by
  have hnd := hl.nodup
  have hz := hl.ne_zero
  by_cases hne : as = []
  · subst hne
    have h0 : line = 0 := hl
    subst h0
    exact Or.inl ⟨_, linear_reorder_null fuel m⟩
  have hline0 : line ≠ 0 := by
    cases as with
    | nil => exact absurd rfl hne
    | cons a as => rw [hl.1]; exact hl.2.1
  rcases sweep_safe hnd hz hfuel as [] line 0 m [] fuel rfl hl (StackInv.init m) hfuel with
    ⟨range1, m1, stk1, e1, i1⟩ | e1
  · have hs1 : stk1 ≠ [] := by
      intro e
      have := i1.cat
      rw [e] at this
      exact hne this.symm
    have hr1 : range1 ≠ 0 := by
      cases stk1 with
      | nil => exact absurd rfl hs1
      | cons f rest => exact i1.rep.2.1
    obtain ⟨m2, f, e2, i2⟩ := unwind_ok hnd hz fuel stk1 m1 range1 i1 hs1
      (by have := i1.length_le; omega)
    obtain ⟨_, f2, f3, _, f5, f6, f7, _⟩ := i2.rep
    have hcat : f.seg = as := by simpa [concat] using i2.cat
    rw [hcat] at f6
    have hx0 : (m2.ranges f.addr).right ≠ 0 := hz _ (List.mem_of_mem_getLast? f6)
    refine Or.inl ⟨((m2.ranges f.addr).left, m2.set_next (m2.ranges f.addr).right 0), ?_⟩
    simp [linear_reorder, hline0, e1, bind, Except.bind, c_assert, hr1, e2,
      load_range_ok m2 f2 f3, store_next_ok m2 0 hx0, Mem.load_range, f2, f3, pure,
      Except.pure]
  · right
    simp [linear_reorder, hline0, e1, bind, Except.bind]

/-! ## The claims -/

/-- C1 (the code departs from it): on the three runs with levels 0, 1, 2 rule L2 gives the
visual order r0, r2, r1 (the runs of level 1 or higher are reversed as a block), while
`linear_reorder` returns the runs in the logical order r0, r1, r2. -/
theorem linear_reorder_differs_from_rule_L2 :
    visual_order [0, 1, 2] = .ok (some [1, 2, 3]) ∧ reference_order [0, 1, 2] = [1, 3, 2] := by
  decide

/-- C2 (the code departs from it): on the five runs with levels 0, 1, 2, 1, 0 rule L2
gives the visual order r0, r3, r2, r1, r4, while `linear_reorder` returns the runs in the
logical order r0, r1, r2, r3, r4. -/
theorem linear_reorder_canonical_example :
    visual_order [0, 1, 2, 1, 0] = .ok (some [1, 2, 3, 4, 5]) ∧
    visual_order [0, 1, 2, 1, 0] ≠ .ok (some [1, 4, 3, 2, 5]) ∧
    reference_order [0, 1, 2, 1, 0] = [1, 4, 3, 2, 5] := by
  decide

/-- C3: on every list of runs that ends with the terminator (its cells are then distinct),
when the allocator has room for one range per run, `linear_reorder` returns a head from
which following `next` visits a list `out` of runs and then reaches the terminator, and
`out` is a permutation of the input runs without repetition, of the same length. -/
theorem linear_reorder_permutation (m : Mem α) (line : Nat) (as : List Nat) (fuel : Nat)
    (hl : IsList m.runs line as 0) (hfuel : as.length < fuel)
    (hroom : m.live.length + as.length ≤ m.limit) :
    ∃ head m' out, linear_reorder fuel line m = .ok (head, m') ∧
      IsList m'.runs head out 0 ∧ out.Perm as ∧ out.Nodup ∧ out.length = as.length := by
  obtain ⟨m', e, h1, _, _⟩ := linear_reorder_order hl hfuel hroom
  exact ⟨line, m', as, e, h1, List.Perm.refl as, hl.nodup, rfl⟩

theorem linear_reorder_permutation_witness :
    IsList (line_of [0, 1, 2, 1, 0]).runs 1 [1, 2, 3, 4, 5] 0 ∧
    ∃ head m' out, linear_reorder 6 1 (line_of [0, 1, 2, 1, 0]) = .ok (head, m') ∧
      IsList m'.runs head out 0 ∧ out.Perm [1, 2, 3, 4, 5] ∧ out.Nodup ∧
      out.length = [1, 2, 3, 4, 5].length :=
  ⟨by decide, linear_reorder_permutation (line_of [0, 1, 2, 1, 0]) 1 [1, 2, 3, 4, 5] 6
    (by decide) (by decide) (by decide)⟩

/-- C4: on every list of runs that ends with the terminator, whatever the levels, with
fuel for one more turn of each loop than there are runs: no assertion fails (neither the
two of `merge_range_with_previous` nor `assert (range)`), no loop runs out of fuel, and
when the allocator has room for one range per run the call returns a result. -/
theorem linear_reorder_total (m : Mem α) (line : Nat) (as : List Nat) (fuel : Nat)
    (hl : IsList m.runs line as 0) (hfuel : as.length < fuel) :
    linear_reorder fuel line m ≠ .error .assert_failed ∧
    linear_reorder fuel line m ≠ .error .out_of_fuel ∧
    (m.live.length + as.length ≤ m.limit →
      ∃ head m', linear_reorder fuel line m = .ok (head, m')) := by
  refine ⟨?_, ?_, fun hroom => ?_⟩
  · rcases linear_reorder_safe hl hfuel with ⟨r, e⟩ | e <;> simp [e]
  · rcases linear_reorder_safe hl hfuel with ⟨r, e⟩ | e <;> simp [e]
  · obtain ⟨m', e, _⟩ := linear_reorder_order hl hfuel hroom
    exact ⟨line, m', e⟩

theorem linear_reorder_total_witness :
    IsList (line_of [3, -1, 4, 1, 5]).runs 1 [1, 2, 3, 4, 5] 0 ∧
    linear_reorder 6 1 (line_of [3, -1, 4, 1, 5]) ≠ .error .assert_failed ∧
    linear_reorder 6 1 (line_of [3, -1, 4, 1, 5]) ≠ .error .out_of_fuel ∧
    ∃ head m', linear_reorder 6 1 (line_of [3, -1, 4, 1, 5]) = .ok (head, m') :=
  have h := linear_reorder_total (line_of [3, -1, 4, 1, 5]) 1 [1, 2, 3, 4, 5] 6
    (by decide) (by decide)
  ⟨by decide, h.1, h.2.1, h.2.2 (by decide)⟩

/-- C5: on the null list `linear_reorder` returns null and leaves the memory as it was:
no range is allocated, no run is written. -/
theorem linear_reorder_empty (fuel : Nat) (m : Mem α) :
    linear_reorder fuel 0 m = .ok (0, m) := by
  simp [linear_reorder]

/-- C6: on a list of one run, of any level, when the allocator has room for one range,
`linear_reorder` returns that run, its `next` is the terminator, and no run cell has
changed. -/
theorem linear_reorder_single (m : Mem α) (line fuel : Nat) (hline : line ≠ 0)
    (hnext : (m.runs line).next = 0) (hfuel : 1 < fuel) (hroom : m.live.length < m.limit) :
    ∃ m', linear_reorder fuel line m = .ok (line, m') ∧ (m'.runs line).next = 0 ∧
      m'.runs = m.runs := by
  have hl : IsList m.runs line [line] 0 := ⟨rfl, hline, hnext⟩
  obtain ⟨m', e, h1, h2, h3⟩ := linear_reorder_order hl hfuel (by simpa using hroom)
  refine ⟨m', e, h1.2.2, funext fun a => ?_⟩
  by_cases ha : a = line
  · subst ha
    have hn : (m'.runs a).next = (m.runs a).next := h1.2.2.trans hnext.symm
    have hlev := (h2 a).1
    have hpay := (h2 a).2
    cases hm' : m'.runs a
    cases hm : m.runs a
    simp only [hm', hm] at hn hlev hpay
    simp [hn, hlev, hpay]
  · exact h3 a (by simpa using ha)

theorem linear_reorder_single_witness :
    (1 ≠ 0 ∧ ((line_of [7]).runs 1).next = 0) ∧
    ∃ m', linear_reorder 2 1 (line_of [7]) = .ok (1, m') ∧ (m'.runs 1).next = 0 ∧
      m'.runs = (line_of [7]).runs :=
  ⟨by decide, linear_reorder_single (line_of [7]) 1 2 (by decide) (by decide) (by decide)
    (by decide)⟩

/-- C7: on every list whose runs all have the same level, this level being 0 or 2, when
the allocator has room for one range per run, `linear_reorder` returns the first run of
the input and leaves the runs linked in the logical order. -/
theorem linear_reorder_equal_levels (m : Mem α) (line : Nat) (as : List Nat) (fuel : Nat)
    (c : Int) (hc : c = 0 ∨ c = 2) (hlev : ∀ a ∈ as, (m.runs a).level = c)
    (hl : IsList m.runs line as 0) (hfuel : as.length < fuel)
    (hroom : m.live.length + as.length ≤ m.limit) :
    ∃ m', linear_reorder fuel line m = .ok (line, m') ∧ IsList m'.runs line as 0 ∧
      ∀ a ∈ as, (m'.runs a).level = c := by
  obtain ⟨m', e, h1, h2, _⟩ := linear_reorder_order hl hfuel hroom
  exact ⟨m', e, h1, fun a ha => (h2 a).1.trans (hlev a ha)⟩

theorem linear_reorder_equal_levels_witness :
    ((2 : Int) = 0 ∨ (2 : Int) = 2) ∧
    ∃ m', linear_reorder 4 1 (line_of [2, 2, 2]) = .ok (1, m') ∧
      IsList m'.runs 1 [1, 2, 3] 0 ∧ ∀ a ∈ [1, 2, 3], (m'.runs a).level = 2 :=
  ⟨by decide, linear_reorder_equal_levels (line_of [2, 2, 2]) 1 [1, 2, 3] 4 2 (by decide)
    (by decide) (by decide) (by decide) (by decide)⟩

/-- C8: on every list of runs that ends with the terminator, when the allocator has room
for one range per run, `linear_reorder` returns and every run cell has the level and the
payload it had before the call; cells that are not runs of the list are untouched. -/
theorem linear_reorder_frame (m : Mem α) (line : Nat) (as : List Nat) (fuel : Nat)
    (hl : IsList m.runs line as 0) (hfuel : as.length < fuel)
    (hroom : m.live.length + as.length ≤ m.limit) :
    ∃ head m', linear_reorder fuel line m = .ok (head, m') ∧
      (∀ a, (m'.runs a).level = (m.runs a).level ∧
        (m'.runs a).payload = (m.runs a).payload) ∧
      (∀ a, a ∉ as → m'.runs a = m.runs a) := by
  obtain ⟨m', e, _, h2, h3⟩ := linear_reorder_order hl hfuel hroom
  exact ⟨line, m', e, h2, h3⟩

theorem linear_reorder_frame_witness :
    IsList (line_of [0, 1, 2, 1, 0]).runs 1 [1, 2, 3, 4, 5] 0 ∧
    ∃ head m', linear_reorder 6 1 (line_of [0, 1, 2, 1, 0]) = .ok (head, m') ∧
      (∀ a, (m'.runs a).level = ((line_of [0, 1, 2, 1, 0]).runs a).level ∧
        (m'.runs a).payload = ((line_of [0, 1, 2, 1, 0]).runs a).payload) ∧
      (∀ a, a ∉ [1, 2, 3, 4, 5] → m'.runs a = (line_of [0, 1, 2, 1, 0]).runs a) :=
  ⟨by decide, linear_reorder_frame (line_of [0, 1, 2, 1, 0]) 1 [1, 2, 3, 4, 5] 6
    (by decide) (by decide) (by decide)⟩

/-- C9 (the code departs from it): on the list of one run of level 0, in a memory with no
range allocated, `linear_reorder` returns after one successful `malloc` and no `free`:
the range at address 1 is still allocated. -/
theorem linear_reorder_leaks_range :
    (linear_reorder 2 1 (line_of [0])).map (fun r => (r.2.mallocs, r.2.frees, r.2.live)) =
      .ok (1, 0, [1]) := by
  decide

/-- C10: for an allocated range whose `previous` is null or allocated,
`merge_range_with_previous` stops on a failed assertion exactly when `previous` is null
or the level of the range beneath is not less than the level of the range; with a null
`previous` the fault is the assertion, not a null dereference. -/
theorem merge_fails_iff (m : Mem α) (range : Nat) (h0 : range ≠ 0) (hl : range ∈ m.live)
    (hp : (m.ranges range).previous ≠ 0 → (m.ranges range).previous ∈ m.live) :
    merge_range_with_previous range m = .error .assert_failed ↔
      ((m.ranges range).previous = 0 ∨
        (m.ranges (m.ranges range).previous).level ≥ (m.ranges range).level) := by
  by_cases hp0 : (m.ranges range).previous = 0
  · simp [merge_range_with_previous, load_range_ok m h0 hl, bind, Except.bind, c_assert, hp0]
  · have hpl := hp hp0
    by_cases hlt : (m.ranges (m.ranges range).previous).level < (m.ranges range).level
    · have hnot : ¬ ((m.ranges range).previous = 0 ∨
          (m.ranges (m.ranges range).previous).level ≥ (m.ranges range).level) := by
        simp [hp0, hlt]
      by_cases hx : (m.ranges (m.ranges range).previous).right = 0
      · have : merge_range_with_previous range m = .error .null_deref := by
          simp [merge_range_with_previous, Mem.load_range, Mem.store_next, bind, Except.bind,
            c_assert, c_mod, h0, hl, hp0, hpl, hlt, hx]
        simp [this, hnot]
      · rw [merge_eval m h0 hl hp0 hpl hlt hx]
        simp [hnot]
    · have : merge_range_with_previous range m = .error .assert_failed := by
        simp [merge_range_with_previous, Mem.load_range, bind, Except.bind,
          c_assert, h0, hl, hp0, hpl, hlt]
      simp only [this, true_iff]
      exact Or.inr (not_lt.1 hlt)

theorem merge_fails_iff_witness :
    (1 ≠ 0 ∧ 1 ∈ lone_range.live) ∧
    (merge_range_with_previous 1 lone_range = .error .assert_failed ↔
      ((lone_range.ranges 1).previous = 0 ∨
        (lone_range.ranges (lone_range.ranges 1).previous).level ≥
          (lone_range.ranges 1).level)) :=
  ⟨by decide, merge_fails_iff lone_range 1 (by decide) (by decide) (by decide)⟩

theorem map_indexOf_self {l : List Nat} (h : l.Nodup) :
    l.map (fun a => l.indexOf a) = List.range l.length := by
  refine List.ext_getElem (by simp) (fun i h1 h2 => ?_)
  simp only [List.getElem_map, List.getElem_range]
  exact List.indexOf_getElem h i (by simpa using h1)

theorem c_mod_one (x : Int) : c_mod x 1 = 0 := by
  simp [c_mod]

/-! ## The invariant at every point of an execution -/

theorem Point.Good.inv {m0 : Mem α} {n : Nat} {p : Point α} (h : p.Good m0 n) :
    ∃ stk ps, StackInv m0 p.mem p.range stk ps ∧ ps.length ≤ n := by
  cases p with
  | merged range m => exact h
  | flattened run range m =>
    obtain ⟨stk, ps, h1, h2, _⟩ := h
    exact ⟨stk, ps, h1, h2⟩
  | consumed run range m =>
    obtain ⟨f, rest, ps, h1, h2, _⟩ := h
    exact ⟨f :: rest, ps, h1, h2⟩

theorem flatten_trace_good {m0 : Mem α} {ps : List Nat} {n : Nat} (run : Nat)
    (hnd : ps.Nodup) (hz : ∀ a ∈ ps, a ≠ 0) (hrun : run ≠ 0) (hn : ps.length ≤ n) :
    ∀ (fuel : Nat) (stk : List Frame) (m : Mem α) (range : Nat),
      StackInv m0 m range stk ps → ∀ p ∈ flatten_trace fuel range run m, p.Good m0 n
  | 0, _, _, _, _ => by simp [flatten_trace]
  | fuel + 1, stk, m, range, h => by
    have htest := flatten_test_eval h.rep hrun
    rw [(h.content run).1] at htest
    cases hu : unsettled (m0.runs run).level stk with
    | false => simp [flatten_trace, htest, hu]
    | true =>
      match stk, h, htest, hu with
      | [], _, _, hu => simp [unsettled] at hu
      | [_], _, _, hu => simp [unsettled] at hu
      | f :: g :: rest, h, htest, hu =>
        obtain ⟨m1, e1, h1⟩ := h.merge hnd hz
        intro p hp
        simp only [flatten_trace, htest, hu, e1, List.mem_cons] at hp
        rcases hp with rfl | hp
        · exact ⟨_, ps, h1, hn⟩
        · exact flatten_trace_good run hnd hz hrun hn fuel _ m1 g.addr h1 p hp

theorem StackInv.step_cases {m0 m : Mem α} {range run : Nat} {stk : List Frame}
    {ps : List Nat} (h : StackInv m0 m range stk ps) (hnd : (ps ++ [run]).Nodup)
    (hz : ∀ a ∈ ps ++ [run], a ≠ 0)
    (hs : unsettled (m0.runs run).level stk = false) :
    (∃ range' m' f rest, attach_or_push range run m = .ok (range', m') ∧
      StackInv m0 m' range' (f :: rest) (ps ++ [run]) ∧
      f.level = (m0.runs run).level) ∨
    (attach_or_push range run m = .error .null_deref ∧
      ¬ stk.length + m0.live.length < m0.limit) := by
  cases ha : attaches (m0.runs run).level stk with
  | false =>
    by_cases hroom : stk.length + m0.live.length < m0.limit
    · obtain ⟨m', e, h'⟩ := h.push hz hroom ha
      exact Or.inl ⟨_, m', _, _, e, h', rfl⟩
    · right
      have hrun : run ≠ 0 := hz run (by simp)
      have htest := attach_test_eval h.rep hrun
      rw [(h.content run).1, ha] at htest
      have hlen : ¬ m.live.length < m.limit := by
        rw [h.live, h.limit]; simpa using hroom
      exact ⟨by simp [attach_or_push, htest, bind, Except.bind, push_fail m range run hlen],
        hroom⟩
  | true =>
    match stk, h, hs, ha with
    | [], _, _, ha => simp [attaches] at ha
    | f :: rest, h, hs, ha =>
      obtain ⟨m', e, h'⟩ := h.attach hnd hz hs ha
      exact Or.inl ⟨_, m', _, _, e, h', rfl⟩

theorem sweep_trace_good {m0 : Mem α} {as : List Nat} (hnd : as.Nodup)
    (hz : ∀ a ∈ as, a ≠ 0) {gas : Nat} (hgas : as.length < gas) :
    ∀ (rs ps : List Nat) (run range : Nat) (m : Mem α) (stk : List Frame) (fuel : Nat),
      ps ++ rs = as → IsList m0.runs run rs 0 → StackInv m0 m range stk ps →
      ∀ p ∈ sweep_trace gas fuel run range m, p.Good m0 as.length
  | _, _, _, _, _, _, 0, _, _, _ => by simp [sweep_trace]
  | [], ps, run, range, m, stk, fuel + 1, _, hl, _ => by
    have h0 : run = 0 := hl
    simp [sweep_trace, h0]
  | r :: rs, ps, run, range, m, stk, fuel + 1, hps, hl, h => by
    obtain ⟨h1, h2, h3⟩ := hl
    subst h1
    have hsplit : (ps ++ [run]) ++ rs = as := by simpa using hps
    have hnd1 : (ps ++ [run]).Nodup := (List.nodup_append.1 (hsplit ▸ hnd)).1
    have hz1 : ∀ a ∈ ps ++ [run], a ≠ 0 := fun a ha =>
      hz a (hsplit ▸ List.mem_append_left _ ha)
    have hnp : run ∉ ps := fun hh =>
      (List.disjoint_of_nodup_append hnd1) hh (by simp)
    have hlen : ps.length + (rs.length + 1) = as.length := by
      rw [← hps]; simp
    have hsl := h.length_le
    have hndp : ps.Nodup := (List.nodup_append.1 hnd1).1
    have hzp : ∀ a ∈ ps, a ≠ 0 := fun a ha => hz1 a (List.mem_append_left _ ha)
    obtain ⟨range1, m1, stk1, e1, i1, l1, s1⟩ :=
      flatten_ok run hndp hzp h2 gas stk m range h (by omega)
    have hft := flatten_trace_good run hndp hzp h2 (show ps.length ≤ as.length by omega)
      gas stk m range h
    have hfl : (Point.flattened run range1 m1).Good m0 as.length :=
      ⟨stk1, ps, i1, by omega, s1⟩
    intro p hp
    rcases i1.step_cases hnd1 hz1 s1 with ⟨range2, m2, f, rest, e2, i2, t2⟩ | ⟨e2, _⟩
    · simp only [sweep_trace, h2, if_false, e1, e2, List.mem_append, List.mem_cons] at hp
      rcases hp with hp | rfl | rfl | hp
      · exact hft p hp
      · exact hfl
      · exact ⟨f, rest, ps ++ [run], i2, by simp; omega, t2⟩
      · rw [h.frame run hnp] at hp
        exact sweep_trace_good hnd hz hgas rs (ps ++ [run]) (m0.runs run).next range2 m2 _
          fuel hsplit h3 i2 p hp
    · simp only [sweep_trace, h2, if_false, e1, e2, List.mem_append, List.mem_cons,
        List.not_mem_nil, or_false] at hp
      rcases hp with hp | rfl
      · exact hft p hp
      · exact hfl

theorem unwind_trace_good {m0 : Mem α} {ps : List Nat} {n : Nat} (hnd : ps.Nodup)
    (hz : ∀ a ∈ ps, a ≠ 0) (hn : ps.length ≤ n) :
    ∀ (fuel : Nat) (stk : List Frame) (m : Mem α) (range : Nat),
      StackInv m0 m range stk ps → range ≠ 0 →
      ∀ p ∈ unwind_trace fuel range m, p.Good m0 n
  | 0, _, _, _, _, _ => by simp [unwind_trace]
  | _ + 1, [], _, _, h, hr => absurd (show _ = 0 from h.rep) hr
  | fuel + 1, [f], m, range, h, _ => by
    obtain ⟨f1, f2, f3, _, _, _, _, f8⟩ := h.rep
    have f8' : (m.ranges range).previous = 0 := f8
    simp [unwind_trace, load_range_ok m f2 f3, f8']
  | fuel + 1, f :: g :: rest, m, range, h, _ => by
    obtain ⟨f1, f2, f3, _, _, _, _, g1, g2, _⟩ := h.rep
    obtain ⟨m1, e1, h1⟩ := h.merge hnd hz
    have hg : g.addr ≠ 0 := g1 ▸ g2
    intro p hp
    simp only [unwind_trace, load_range_ok m f2 f3, g2, ne_eq, not_false_eq_true, if_true, e1,
      List.mem_cons] at hp
    rcases hp with rfl | hp
    · exact ⟨_, ps, h1, hn⟩
    · exact unwind_trace_good hnd hz hn fuel _ m1 g.addr h1 hg p hp

theorem linear_reorder_trace_good {m : Mem α} {line : Nat} {as : List Nat} {fuel : Nat}
    (hl : IsList m.runs line as 0) (hfuel : as.length < fuel) :
    ∀ p ∈ linear_reorder_trace fuel line m, p.Good m as.length := by
  have hnd := hl.nodup
  have hz := hl.ne_zero
  intro p hp
  by_cases hline : line = 0
  · simp [linear_reorder_trace, hline] at hp
  have hsw := sweep_trace_good hnd hz hfuel as [] line 0 m [] fuel rfl hl (StackInv.init m)
  simp only [linear_reorder_trace, hline, if_false, List.mem_append] at hp
  rcases hp with hp | hp
  · exact hsw p hp
  · rcases sweep_safe hnd hz hfuel as [] line 0 m [] fuel rfl hl (StackInv.init m) hfuel with
      ⟨range1, m1, stk1, e1, i1⟩ | e1
    · rw [e1] at hp
      by_cases hr : range1 = 0
      · simp [hr] at hp
      · simp only [hr, if_false] at hp
        exact unwind_trace_good hnd hz le_rfl fuel stk1 m1 range1 i1 hr p hp
    · rw [e1] at hp
      simp at hp

theorem sweep_trace_consumes {m0 : Mem α} {as : List Nat} (hnd : as.Nodup)
    (hz : ∀ a ∈ as, a ≠ 0) {gas : Nat} (hgas : as.length < gas) :
    ∀ (rs ps : List Nat) (run range : Nat) (m : Mem α) (stk : List Frame) (fuel : Nat),
      ps ++ rs = as → IsList m0.runs run rs 0 → StackInv m0 m range stk ps →
      stk.length + m0.live.length + rs.length ≤ m0.limit → rs.length < fuel →
      ∀ r ∈ rs, ∃ range' m', Point.consumed r range' m' ∈ sweep_trace gas fuel run range m
  | _, _, _, _, _, _, 0, _, _, _, _, hf => by simp at hf
  | [], _, _, _, _, _, _ + 1, _, _, _, _, _ => by simp
  | r :: rs, ps, run, range, m, stk, fuel + 1, hps, hl, h, hroom, hf => by
    obtain ⟨h1, h2, h3⟩ := hl
    subst h1
    have hsplit : (ps ++ [run]) ++ rs = as := by simpa using hps
    have hnd1 : (ps ++ [run]).Nodup := (List.nodup_append.1 (hsplit ▸ hnd)).1
    have hz1 : ∀ a ∈ ps ++ [run], a ≠ 0 := fun a ha =>
      hz a (hsplit ▸ List.mem_append_left _ ha)
    have hnp : run ∉ ps := fun hh =>
      (List.disjoint_of_nodup_append hnd1) hh (by simp)
    have hlen : ps.length + (rs.length + 1) = as.length := by
      rw [← hps]; simp
    have hsl := h.length_le
    obtain ⟨range1, m1, stk1, e1, i1, l1, s1⟩ :=
      flatten_ok run (List.nodup_append.1 hnd1).1
        (fun a ha => hz1 a (List.mem_append_left _ ha)) h2 gas stk m range h (by omega)
    simp only [List.length_cons] at hroom hf
    obtain ⟨range2, m2, stk2, e2, i2, l2⟩ := i1.step hnd1 hz1 (by omega) s1
    intro x hx
    rcases List.mem_cons.1 hx with rfl | hx
    · exact ⟨range2, m2, by simp [sweep_trace, h2, e1, e2]⟩
    · obtain ⟨range', m', hm⟩ :=
        sweep_trace_consumes hnd hz hgas rs (ps ++ [run]) (m0.runs run).next range2 m2 stk2
          fuel hsplit h3 i2 (by omega) (by omega) x hx
      refine ⟨range', m', ?_⟩
      simp only [sweep_trace, h2, if_false, e1, e2, List.mem_append, List.mem_cons]
      rw [h.frame run hnp]
      exact Or.inr (Or.inr (Or.inr hm))

theorem linear_reorder_trace_consumes {m : Mem α} {line : Nat} {as : List Nat} {fuel : Nat}
    (hl : IsList m.runs line as 0) (hfuel : as.length < fuel)
    (hroom : m.live.length + as.length ≤ m.limit) :
    ∀ r ∈ as, ∃ range' m', Point.consumed r range' m' ∈ linear_reorder_trace fuel line m := by
  intro r hr
  have hline : line ≠ 0 := by
    cases as with
    | nil => simp at hr
    | cons a as => rw [hl.1]; exact hl.2.1
  obtain ⟨range', m', hm⟩ := sweep_trace_consumes hl.nodup hl.ne_zero hfuel as [] line 0 m []
    fuel rfl hl (StackInv.init m) (by simp; omega) hfuel r hr
  exact ⟨range', m', by simp [linear_reorder_trace, hline, hm]⟩

/-! ## Reading the stack in memory -/

theorem Rep.level_eq {m : Mem α} : ∀ {stk : List Frame} {p : Nat}, Rep m p stk →
    ∀ f ∈ stk, (m.ranges f.addr).level = f.level
  | [], _, _ => by simp
  | f :: rest, p, h => by
    intro g hg
    rcases List.mem_cons.1 hg with rfl | hg
    · exact h.1 ▸ h.2.2.2.1
    · exact Rep.level_eq h.2.2.2.2.2.2.2 g hg

theorem Rep.above_previous {m : Mem α} : ∀ {stk : List Frame} {p : Nat}, Rep m p stk →
    Increasing stk → ∀ f ∈ stk, (m.ranges f.addr).previous ≠ 0 →
      (m.ranges (m.ranges f.addr).previous).level < (m.ranges f.addr).level
  | [], _, _, _ => by simp
  | [f], p, h, _ => by
    intro g hg hp
    simp only [List.mem_singleton] at hg
    subst hg
    have h0 : (m.ranges p).previous = 0 := h.2.2.2.2.2.2.2
    rw [← h.1] at hp
    exact absurd h0 hp
  | f :: f' :: rest, p, h, hi => by
    intro g hg hp
    have hrest := h.2.2.2.2.2.2.2
    obtain ⟨h1, _, _, h4, _, _, _, g1, _, _, g4, _⟩ := h
    rcases List.mem_cons.1 hg with rfl | hg
    · rw [← h1, h4, g4]
      exact hi.1
    · exact Rep.above_previous hrest hi.2 g hg hp

theorem Linked.iterate {runs : Nat → run_t α} : ∀ {s : List Nat} {a b : Nat},
    Linked runs s → s.head? = some a → s.getLast? = some b →
    (fun x => (runs x).next)^[s.length - 1] a = b
  | [], _, _, _, ha, _ => by simp at ha
  | [x], a, b, _, ha, hb => by
    simp only [List.head?_cons, Option.some.injEq, List.getLast?_singleton] at ha hb
    simp [← ha, ← hb]
  | x :: y :: s, a, b, hs, ha, hb => by
    simp only [List.head?_cons, Option.some.injEq] at ha
    subst ha
    have ih := Linked.iterate (s := y :: s) (a := y) (b := b) hs.2 rfl
      (by simpa using hb)
    simp only [List.length_cons, Nat.add_sub_cancel] at ih ⊢
    rw [Function.iterate_succ_apply, hs.1]
    exact ih

theorem Rep.reaches {m : Mem α} : ∀ {stk : List Frame} {p : Nat}, Rep m p stk →
    ∀ f ∈ stk, ∃ k, (fun x => (m.runs x).next)^[k] (m.ranges f.addr).left =
      (m.ranges f.addr).right
  | [], _, _ => by simp
  | f :: rest, p, h => by
    intro g hg
    rcases List.mem_cons.1 hg with rfl | hg
    · obtain ⟨h1, _, _, _, h5, h6, h7, _⟩ := h
      rw [← h1]
      exact ⟨_, Linked.iterate h7 h5 h6⟩
    · exact Rep.reaches h.2.2.2.2.2.2.2 g hg

theorem Increasing.lt_top : ∀ {rest : List Frame} {f : Frame}, Increasing (f :: rest) →
    ∀ g ∈ rest, g.level < f.level
  | [], _, _ => by simp
  | g :: rest, f, h => by
    intro x hx
    rcases List.mem_cons.1 hx with rfl | hx
    · exact h.1
    · exact lt_trans (Increasing.lt_top h.2 x hx) h.1

theorem settled_below {lvl : Int} : ∀ {stk : List Frame}, Increasing stk →
    unsettled lvl stk = false → ∀ g ∈ stk.tail, g.level < lvl
  | [], _, _ => by simp
  | [_], _, _ => by simp
  | f :: g :: rest, hi, hs => by
    have hg : g.level < lvl := by
      simp only [unsettled, decide_eq_false_iff_not, not_and, ge_iff_le, gt_iff_lt,
        not_le] at hs
      by_cases hf : lvl < f.level
      · exact hs hf
      · exact lt_of_lt_of_le hi.1 (not_lt.1 hf)
    intro x hx
    simp only [List.tail_cons] at hx
    rcases List.mem_cons.1 hx with rfl | hx
    · exact hg
    · exact lt_trans (Increasing.lt_top hi.2 x hx) hg

/-- The call on a well-formed line ends with one range on the stack that holds all the
runs; the result is the memory there with the `next` of the last run set to null. -/
theorem linear_reorder_final {m : Mem α} {line : Nat} {as : List Nat} {fuel : Nat}
    (hl : IsList m.runs line as 0) (hne : as ≠ []) (hfuel : as.length < fuel)
    (hroom : m.live.length + as.length ≤ m.limit) :
    ∃ m2 f, StackInv m m2 f.addr [f] as ∧
      linear_reorder fuel line m = .ok (line, m2.set_next (m2.ranges f.addr).right 0) := by
  have hnd := hl.nodup
  have hz := hl.ne_zero
  obtain ⟨range1, m1, stk1, e1, i1⟩ :=
    sweep_ok hnd hz hfuel as [] line 0 m [] fuel rfl hl (StackInv.init m)
      (by simp; omega) hfuel
  have hs1 : stk1 ≠ [] := by
    intro e
    have := i1.cat
    rw [e] at this
    exact hne this.symm
  have hr1 : range1 ≠ 0 := by
    cases stk1 with
    | nil => exact absurd rfl hs1
    | cons f rest => exact i1.rep.2.1
  obtain ⟨m2, f, e2, i2⟩ := unwind_ok hnd hz fuel stk1 m1 range1 i1 hs1
    (by have := i1.length_le; omega)
  obtain ⟨_, f2, f3, _, f5, f6, f7, _⟩ := i2.rep
  have hcat : f.seg = as := by simpa [concat] using i2.cat
  rw [hcat] at f5 f6
  have hx0 : (m2.ranges f.addr).right ≠ 0 := hz _ (List.mem_of_mem_getLast? f6)
  have hline : (m2.ranges f.addr).left = line := by
    cases as with
    | nil => exact absurd rfl hne
    | cons a as =>
      simp only [List.head?_cons, Option.some.injEq] at f5
      rw [← f5]; exact hl.1.symm
  have hline0 : line ≠ 0 := by
    cases as with
    | nil => exact absurd rfl hne
    | cons a as => rw [hl.1]; exact hl.2.1
  refine ⟨m2, f, i2, ?_⟩
  simp [linear_reorder, hline0, e1, bind, Except.bind, c_assert, hr1, e2,
    load_range_ok m2 f2 f3, store_next_ok m2 0 hx0, Mem.load_range, f2, f3, pure,
    Except.pure, hline]

/-! ## Lines built by `line_of` -/

theorem line_of_chain (levels : List Int) : ∀ (len start : Nat), 1 ≤ start →
    start + len = levels.length + 1 →
    IsList (line_of levels).runs (if len = 0 then 0 else start) (List.range' start len) 0
  | 0, _, _, _ => by simp [IsList]
  | len + 1, start, h1, h2 => by
    have ih := line_of_chain levels len (start + 1) (by omega) (by omega)
    refine ⟨by simp, by omega, ?_⟩
    have hn : ((line_of levels).runs start).next = if len = 0 then 0 else start + 1 := by
      by_cases hl : len = 0
      · have : ¬ start < levels.length := by omega
        simp [line_of, hl, this]
      · have : start < levels.length := by omega
        simp [line_of, hl, this]
    rw [hn]
    exact ih

theorem line_of_isList (levels : List Int) :
    IsList (line_of levels).runs (head_of levels) (List.range' 1 levels.length) 0 := by
  have h := line_of_chain levels levels.length 1 le_rfl (by omega)
  have hh : head_of levels = if levels.length = 0 then 0 else 1 := by
    cases levels <;> simp [head_of]
  rw [hh]
  exact h

theorem line_of_level (levels : List Int) (a : Nat) :
    ((line_of levels).runs a).level = levels.getD (a - 1) 0 := rfl

theorem ramp_getD (k i : Nat) (h : i < k) : (ramp k).getD i 0 = Int.ofNat i := by
  unfold ramp
  rw [List.getD_eq_getElem?_getD, List.getElem?_map, List.getElem?_range h]
  rfl

theorem ramp_rises (k : Nat) :
    (List.range' 1 k).Pairwise
      (fun a b => ((line_of (ramp k)).runs a).level < ((line_of (ramp k)).runs b).level) := by
  refine List.Pairwise.imp_of_mem ?_ (List.pairwise_lt_range' 1 k)
  intro a b ha hb hab
  simp only [List.mem_range'_1] at ha hb
  rw [line_of_level, line_of_level, ramp_getD k (a - 1) (by omega),
    ramp_getD k (b - 1) (by omega)]
  simp only [Int.ofNat_eq_coe]
  omega

/-! ## Lines whose levels rise -/

theorem flatten_settled {m : Mem α} {range run : Nat} {stk : List Frame}
    (hrep : Rep m range stk) (hrun : run ≠ 0)
    (hs : unsettled (m.runs run).level stk = false) (fuel : Nat) :
    flatten (fuel + 1) range run m = .ok (range, m) := by
  simp [flatten, flatten_test_eval hrep hrun, hs, bind, Except.bind, pure, Except.pure]

theorem sweep_rising {m0 : Mem α} {as : List Nat} (hnd : as.Nodup) (hz : ∀ a ∈ as, a ≠ 0)
    (hrise : as.Pairwise (fun a b => (m0.runs a).level < (m0.runs b).level)) (gas : Nat) :
    ∀ (rs ps : List Nat) (run range : Nat) (m : Mem α) (stk : List Frame) (fuel : Nat),
      ps ++ rs = as → IsList m0.runs run rs 0 → StackInv m0 m range stk ps →
      stk.length + m0.live.length + rs.length ≤ m0.limit → rs.length < fuel →
      (∀ f ∈ stk.head?, ∃ a ∈ ps, f.level = (m0.runs a).level) →
      ∃ range' m' stk', sweep (gas + 1) fuel run range m = .ok (range', m') ∧
        StackInv m0 m' range' stk' as ∧ stk'.length = stk.length + rs.length
  | _, _, _, _, _, _, 0, _, _, _, _, hf, _ => by simp at hf
  | [], ps, run, range, m, stk, fuel + 1, hps, hl, h, _, _, _ => by
    have h0 : run = 0 := hl
    have hp : ps = as := by simpa using hps
    exact ⟨range, m, stk, by simp [sweep, h0], hp ▸ h, by simp⟩
  | r :: rs, ps, run, range, m, stk, fuel + 1, hps, hl, h, hroom, hf, htop => by
    obtain ⟨h1, h2, h3⟩ := hl
    subst h1
    have hsplit : (ps ++ [run]) ++ rs = as := by simpa using hps
    have hnd1 : (ps ++ [run]).Nodup := (List.nodup_append.1 (hsplit ▸ hnd)).1
    have hz1 : ∀ a ∈ ps ++ [run], a ≠ 0 := fun a ha =>
      hz a (hsplit ▸ List.mem_append_left _ ha)
    have hnp : run ∉ ps := fun hh =>
      (List.disjoint_of_nodup_append hnd1) hh (by simp)
    have hbefore : ∀ a ∈ ps, (m0.runs a).level < (m0.runs run).level := fun a ha =>
      (List.pairwise_append.1 (hps ▸ hrise)).2.2 a ha run (by simp)
    have hlow : ∀ f ∈ stk.head?, f.level < (m0.runs run).level := fun f hf' => by
      obtain ⟨a, ha, e⟩ := htop f hf'
      rw [e]; exact hbefore a ha
    have hs : unsettled (m0.runs run).level stk = false := by
      match stk, hlow with
      | [], _ => rfl
      | [_], _ => rfl
      | f :: g :: _, hlow =>
        have := hlow f (by simp)
        simp only [unsettled, decide_eq_false_iff_not, not_and, gt_iff_lt]
        intro hgt
        exact absurd hgt (not_lt.2 (le_of_lt this))
    have ha : attaches (m0.runs run).level stk = false := by
      match stk, hlow with
      | [], _ => rfl
      | f :: _, hlow =>
        have := hlow f (by simp)
        simp only [attaches, decide_eq_false_iff_not, ge_iff_le, not_le]
        exact this
    have e1 : flatten (gas + 1) range run m = .ok (range, m) :=
      flatten_settled h.rep h2 (by rw [(h.content run).1]; exact hs) gas
    simp only [List.length_cons] at hroom hf
    obtain ⟨m2, e2, i2⟩ := h.push hz1 (by omega) ha
    obtain ⟨range', m', stk', e3, i3, l3⟩ :=
      sweep_rising hnd hz hrise gas rs (ps ++ [run]) (m0.runs run).next (fresh m.live) m2 _
        fuel hsplit h3 i2 (by simp only [List.length_cons]; omega) (by omega)
        (fun f hf' => by
          simp only [List.head?_cons, Option.mem_def, Option.some.injEq] at hf'
          subst hf'
          exact ⟨run, by simp, rfl⟩)
    refine ⟨range', m', stk', ?_, i3, ?_⟩
    · simp [sweep, h2, load_run_ok m h2, bind, Except.bind, e1, e2, h.frame run hnp, e3]
    · simp only [List.length_cons] at l3 ⊢
      omega

/-! ## The trace ends where the call ends -/

theorem getLast?_cons_of_getLast? {β : Type} {x y : β} {l : List β}
    (h : l.getLast? = some y) : (x :: l).getLast? = some y := by
  cases l with
  | nil => simp at h
  | cons a l => rw [List.getLast?_cons_cons]; exact h

theorem flatten_trace_last : ∀ (fuel range run : Nat) (m : Mem α) (r : Nat × Mem α),
    flatten fuel range run m = .ok r →
    (flatten_trace fuel range run m = [] ∧ r = (range, m)) ∨
      (flatten_trace fuel range run m).getLast? = some (.merged r.1 r.2)
  | 0, _, _, _, _, h => by simp [flatten] at h
  | fuel + 1, range, run, m, r, h => by
    cases ht : flatten_test range run m with
    | error e => simp [flatten, ht, bind, Except.bind] at h
    | ok b =>
      cases b with
      | false =>
        simp only [flatten, ht, bind, Except.bind, pure, Except.pure, Bool.false_eq_true,
          if_false, Except.ok.injEq] at h
        exact Or.inl ⟨by simp [flatten_trace, ht], h.symm⟩
      | true =>
        cases hm : merge_range_with_previous range m with
        | error e => simp [flatten, ht, hm, bind, Except.bind] at h
        | ok q =>
          obtain ⟨r1, m1⟩ := q
          simp only [flatten, ht, hm, bind, Except.bind, if_true] at h
          right
          simp only [flatten_trace, ht, hm]
          rcases flatten_trace_last fuel r1 run m1 r h with ⟨e, rfl⟩ | hl
          · simp [e]
          · exact getLast?_cons_of_getLast? hl

theorem unwind_trace_last : ∀ (fuel range : Nat) (m : Mem α) (r : Nat × Mem α),
    unwind fuel range m = .ok r →
    (unwind_trace fuel range m = [] ∧ r = (range, m)) ∨
      (unwind_trace fuel range m).getLast? = some (.merged r.1 r.2)
  | 0, _, _, _, h => by simp [unwind] at h
  | fuel + 1, range, m, r, h => by
    cases hg : m.load_range range with
    | error e => simp [unwind, hg, bind, Except.bind] at h
    | ok rg =>
      by_cases hp : rg.previous = 0
      · simp only [unwind, hg, bind, Except.bind, hp, ne_eq, not_true_eq_false, if_false, pure,
          Except.pure, Except.ok.injEq] at h
        exact Or.inl ⟨by simp [unwind_trace, hg, hp], h.symm⟩
      · cases hm : merge_range_with_previous range m with
        | error e => simp [unwind, hg, hp, hm, bind, Except.bind] at h
        | ok q =>
          obtain ⟨r1, m1⟩ := q
          simp only [unwind, hg, hp, hm, bind, Except.bind, ne_eq, not_false_eq_true,
            if_true] at h
          right
          simp only [unwind_trace, hg, hp, hm, ne_eq, not_false_eq_true, if_true]
          rcases unwind_trace_last fuel r1 m1 r h with ⟨e, rfl⟩ | hl
          · simp [e]
          · exact getLast?_cons_of_getLast? hl

theorem sweep_trace_last (gas : Nat) : ∀ (fuel run range : Nat) (m : Mem α) (r : Nat × Mem α),
    sweep gas fuel run range m = .ok r →
    (sweep_trace gas fuel run range m = [] ∧ r = (range, m)) ∨
      ∃ x, (sweep_trace gas fuel run range m).getLast? = some (.consumed x r.1 r.2)
  | 0, _, _, _, _, h => by simp [sweep] at h
  | fuel + 1, run, range, m, r, h => by
    by_cases h0 : run = 0
    · simp only [sweep, h0, if_true, Except.ok.injEq] at h
      exact Or.inl ⟨by simp [sweep_trace, h0], h.symm⟩
    · cases hf : flatten gas range run m with
      | error e => simp [sweep, h0, load_run_ok m h0, hf, bind, Except.bind] at h
      | ok q1 =>
        obtain ⟨r1, m1⟩ := q1
        cases ha : attach_or_push r1 run m1 with
        | error e => simp [sweep, h0, load_run_ok m h0, hf, ha, bind, Except.bind] at h
        | ok q2 =>
          obtain ⟨r2, m2⟩ := q2
          simp only [sweep, h0, if_false, load_run_ok m h0, hf, ha, bind, Except.bind] at h
          right
          simp only [sweep_trace, h0, if_false, hf, ha]
          rcases sweep_trace_last gas fuel (m.runs run).next r2 m2 r h with ⟨e, rfl⟩ | ⟨x, hl⟩
          · exact ⟨run, by simp [e]⟩
          · refine ⟨x, ?_⟩
            rw [List.getLast?_append, getLast?_cons_of_getLast? (getLast?_cons_of_getLast? hl)]
            rfl

theorem load_range_eq {m : Mem α} {p : Nat} {rg : range_t} (h : m.load_range p = .ok rg) :
    rg = m.ranges p := by
  unfold Mem.load_range at h
  split at h
  · simp at h
  · split at h
    · simpa using h.symm
    · simp at h

/-- When a call on a non-null line returns, the trace has a last point, and the result of
the call is read there: the head returned is the `left` of the range on top and the memory
returned is the memory of the point with the `next` of the `right` run set to null. -/
theorem linear_reorder_trace_last {fuel line : Nat} {m : Mem α} {r : Nat × Mem α}
    (hline : line ≠ 0) (h : linear_reorder fuel line m = .ok r) :
    ∃ p, (linear_reorder_trace fuel line m).getLast? = some p ∧
      r = ((p.mem.ranges p.range).left,
        p.mem.set_next (p.mem.ranges p.range).right 0) := by
  cases hs : sweep fuel fuel line 0 m with
  | error e => simp [linear_reorder, hline, hs, bind, Except.bind] at h
  | ok q1 =>
    obtain ⟨r1, m1⟩ := q1
    by_cases hr1 : r1 = 0
    · simp [linear_reorder, hline, hs, bind, Except.bind, c_assert, hr1] at h
    cases hu : unwind fuel r1 m1 with
    | error e => simp [linear_reorder, hline, hs, bind, Except.bind, c_assert, hr1, hu] at h
    | ok q2 =>
      obtain ⟨r2, m2⟩ := q2
      cases hg : m2.load_range r2 with
      | error e =>
        simp [linear_reorder, hline, hs, bind, Except.bind, c_assert, hr1, hu, hg] at h
      | ok rg =>
        have hrg := load_range_eq hg
        by_cases hx : rg.right = 0
        · simp [linear_reorder, hline, hs, bind, Except.bind, c_assert, hr1, hu, hg,
            Mem.store_next, hx] at h
        have hg' : (m2.set_next rg.right 0).load_range r2 = .ok rg := hg
        simp only [linear_reorder, hline, if_false, hs, bind, Except.bind, c_assert, hr1, ne_eq,
          not_false_eq_true, if_true, hu, hg, store_next_ok m2 0 hx, hg', pure, Except.pure,
          Except.ok.injEq] at h
        have hres : r = ((m2.ranges r2).left, m2.set_next (m2.ranges r2).right 0) := by
          rw [← hrg]; exact h.symm
        have hst : ∃ p, (linear_reorder_trace fuel line m).getLast? = some p ∧
            p.range = r2 ∧ p.mem = m2 := by
          simp only [linear_reorder_trace, hline, if_false, hs, hr1]
          rcases unwind_trace_last fuel r1 m1 (r2, m2) hu with ⟨e, e'⟩ | hl
          · simp only [Prod.mk.injEq] at e'
            obtain ⟨rfl, rfl⟩ := e'
            rcases sweep_trace_last fuel fuel line 0 m (r2, m2) hs with ⟨_, e''⟩ | ⟨x, hl⟩
            · simp only [Prod.mk.injEq] at e''
              exact absurd e''.1 hr1
            · exact ⟨Point.consumed x _ _, by rw [e, List.append_nil]; exact hl, rfl, rfl⟩
          · exact ⟨Point.merged _ _, by rw [List.getLast?_append, hl]; rfl, rfl, rfl⟩
        obtain ⟨p, hp, e1, e2⟩ := hst
        exact ⟨p, hp, by rw [e1, e2]; exact hres⟩

/-! ## The ranges held at once -/

theorem line_with_isList (limit : Nat) (levels : List Int) :
    IsList (line_with limit levels).runs (head_of levels) (List.range' 1 levels.length) 0 :=
  line_of_isList levels

theorem ramp_length (k : Nat) : (ramp k).length = k := by
  unfold ramp
  rw [List.length_map, List.length_range]

theorem ramp_bounds (M : Nat) : ∀ l ∈ ramp (M + 1), 0 ≤ l ∧ l ≤ (M : Int) := by
  intro l hl
  unfold ramp at hl
  obtain ⟨i, hi, rfl⟩ := List.mem_map.1 hl
  have := List.mem_range.1 hi
  simp only [Int.ofNat_eq_coe]
  omega

theorem held_after_sweep_le (limit : Nat) (levels : List Int) :
    held_after_sweep limit levels ≤ levels.length := by
  have hl := line_with_isList limit levels
  rcases sweep_safe hl.nodup hl.ne_zero (show (List.range' 1 levels.length).length <
      levels.length + 1 by simp) (List.range' 1 levels.length) [] (head_of levels) 0
      (line_with limit levels) [] (levels.length + 1) rfl hl (StackInv.init _) (by simp) with
    ⟨range', m', stk', e, i⟩ | e
  · have hlen := i.length_le
    have hlive := i.live
    simp only [held_after_sweep, e]
    rw [hlive]
    simpa [line_with, line_of] using hlen
  · simp [held_after_sweep, e]

theorem held_after_sweep_ramp (limit k : Nat) (h : k ≤ limit) :
    held_after_sweep limit (ramp k) = k := by
  have hk := ramp_length k
  have hl := line_with_isList limit (ramp k)
  rw [hk] at hl
  have hr : (List.range' 1 k).Pairwise (fun a b =>
      ((line_with limit (ramp k)).runs a).level < ((line_with limit (ramp k)).runs b).level) :=
    ramp_rises k
  obtain ⟨range', m', stk', e, i, l⟩ :=
    sweep_rising hl.nodup hl.ne_zero hr k (List.range' 1 k) []
      (head_of (ramp k)) 0 (line_with limit (ramp k)) [] (k + 1) rfl hl (StackInv.init _)
      (by simpa [line_with, line_of] using h) (by simp) (by simp)
  have hlive := i.live
  simp only [held_after_sweep, hk, e]
  rw [hlive]
  simpa [line_with, line_of] using l

/-! ## A failed allocation -/

theorem malloc_null_iff (m : Mem α) : (malloc m).1 = 0 ↔ ¬ m.live.length < m.limit := by
  by_cases h : m.live.length < m.limit
  · simp [malloc, h, fresh_ne_zero]
  · simp [malloc, h]

theorem malloc_null_mem (m : Mem α) (h : (malloc m).1 = 0) : (malloc m).2 = m := by
  have h' := (malloc_null_iff m).1 h
  simp [malloc, h']

theorem attach_or_push_fail {m : Mem α} {range run : Nat}
    (ht : attach_test range run m = .ok false) (hm : (malloc m).1 = 0) :
    attach_or_push range run m = .error .null_deref := by
  simp [attach_or_push, ht, bind, Except.bind, push_fail m range run ((malloc_null_iff m).1 hm)]

theorem flatten_trace_merged : ∀ (fuel range run : Nat) (m : Mem α),
    ∀ p ∈ flatten_trace fuel range run m, ∃ r m', p = .merged r m'
  | 0, _, _, _ => by simp [flatten_trace]
  | fuel + 1, range, run, m => by
    intro p hp
    cases ht : flatten_test range run m with
    | error e => simp [flatten_trace, ht] at hp
    | ok b =>
      cases b with
      | false => simp [flatten_trace, ht] at hp
      | true =>
        cases hm : merge_range_with_previous range m with
        | error e => simp [flatten_trace, ht, hm] at hp
        | ok q =>
          obtain ⟨r1, m1⟩ := q
          simp only [flatten_trace, ht, hm, List.mem_cons] at hp
          rcases hp with rfl | hp
          · exact ⟨r1, m1, rfl⟩
          · exact flatten_trace_merged fuel r1 run m1 p hp

theorem unwind_trace_merged : ∀ (fuel range : Nat) (m : Mem α),
    ∀ p ∈ unwind_trace fuel range m, ∃ r m', p = .merged r m'
  | 0, _, _ => by simp [unwind_trace]
  | fuel + 1, range, m => by
    intro p hp
    cases hg : m.load_range range with
    | error e => simp [unwind_trace, hg] at hp
    | ok rg =>
      by_cases hz : rg.previous = 0
      · simp [unwind_trace, hg, hz] at hp
      · cases hm : merge_range_with_previous range m with
        | error e => simp [unwind_trace, hg, hz, hm] at hp
        | ok q =>
          obtain ⟨r1, m1⟩ := q
          simp only [unwind_trace, hg, hz, hm, ne_eq, not_false_eq_true, if_true,
            List.mem_cons] at hp
          rcases hp with rfl | hp
          · exact ⟨r1, m1, rfl⟩
          · exact unwind_trace_merged fuel r1 m1 p hp

/-- A fault of the `if`/`else` at a point where the inner loop has ended is the fault of
the outer loop. -/
theorem sweep_trace_fault (gas : Nat) {e : Fault} {x r1 : Nat} {m1 : Mem α}
    (hf : attach_or_push r1 x m1 = .error e) :
    ∀ (fuel run range : Nat) (m : Mem α),
      Point.flattened x r1 m1 ∈ sweep_trace gas fuel run range m →
      sweep gas fuel run range m = .error e
  | 0, _, _, _, hp => by simp [sweep_trace] at hp
  | fuel + 1, run, range, m, hp => by
    by_cases h0 : run = 0
    · simp [sweep_trace, h0] at hp
    · simp only [sweep_trace, h0, if_false, List.mem_append] at hp
      rcases hp with hp | hp
      · obtain ⟨r, m', e'⟩ := flatten_trace_merged gas range run m _ hp
        cases e'
      · cases hfl : flatten gas range run m with
        | error e' => simp [hfl] at hp
        | ok q1 =>
          obtain ⟨r1', m1'⟩ := q1
          simp only [hfl, List.mem_cons] at hp
          rcases hp with hp | hp
          · cases hp
            simp [sweep, h0, load_run_ok m h0, hfl, hf, bind, Except.bind]
          · cases ha : attach_or_push r1' run m1' with
            | error e' => simp [ha] at hp
            | ok q2 =>
              obtain ⟨r2, m2⟩ := q2
              simp only [ha, List.mem_cons] at hp
              rcases hp with hp | hp
              · cases hp
              · have ih := sweep_trace_fault gas hf fuel (m.runs run).next r2 m2 hp
                simp [sweep, h0, load_run_ok m h0, hfl, ha, bind, Except.bind, ih]

/-- A fault of the `if`/`else` at a point of the call where the inner loop has ended is
the fault of the call. -/
theorem linear_reorder_trace_fault {fuel line : Nat} {m : Mem α} {e : Fault} {x r1 : Nat}
    {m1 : Mem α} (hp : Point.flattened x r1 m1 ∈ linear_reorder_trace fuel line m)
    (hf : attach_or_push r1 x m1 = .error e) :
    linear_reorder fuel line m = .error e := by
  by_cases hline : line = 0
  · simp [linear_reorder_trace, hline] at hp
  simp only [linear_reorder_trace, hline, if_false, List.mem_append] at hp
  rcases hp with hp | hp
  · have := sweep_trace_fault fuel hf fuel line 0 m hp
    simp [linear_reorder, hline, this, bind, Except.bind]
  · cases hs : sweep fuel fuel line 0 m with
    | error e' => simp [hs] at hp
    | ok q =>
      obtain ⟨r, m'⟩ := q
      simp only [hs] at hp
      by_cases hr : r = 0
      · simp [hr] at hp
      · simp only [hr, if_false] at hp
        obtain ⟨r', m'', e'⟩ := unwind_trace_merged fuel r m' _ hp
        cases e'

theorem sweep_outcome {m0 : Mem α} {as : List Nat} (hnd : as.Nodup) (hz : ∀ a ∈ as, a ≠ 0)
    {gas : Nat} (hgas : as.length < gas) :
    ∀ (rs ps : List Nat) (run range : Nat) (m : Mem α) (stk : List Frame) (fuel : Nat),
      ps ++ rs = as → IsList m0.runs run rs 0 → StackInv m0 m range stk ps →
      rs.length < fuel →
      (∃ range' m' stk', sweep gas fuel run range m = .ok (range', m') ∧
        StackInv m0 m' range' stk' as) ∨
      (sweep gas fuel run range m = .error .null_deref ∧
        ∃ x r1 m1, Point.flattened x r1 m1 ∈ sweep_trace gas fuel run range m ∧
          attach_test r1 x m1 = .ok false ∧ (malloc m1).1 = 0)
  | _, _, _, _, _, _, 0, _, _, _, hf => by simp at hf
  | [], ps, run, range, m, stk, fuel + 1, hps, hl, h, _ => by
    have h0 : run = 0 := hl
    have hp : ps = as := by simpa using hps
    exact Or.inl ⟨range, m, stk, by simp [sweep, h0], hp ▸ h⟩
  | r :: rs, ps, run, range, m, stk, fuel + 1, hps, hl, h, hf => by
    obtain ⟨h1, h2, h3⟩ := hl
    subst h1
    have hsplit : (ps ++ [run]) ++ rs = as := by simpa using hps
    have hnd1 : (ps ++ [run]).Nodup := (List.nodup_append.1 (hsplit ▸ hnd)).1
    have hz1 : ∀ a ∈ ps ++ [run], a ≠ 0 := fun a ha =>
      hz a (hsplit ▸ List.mem_append_left _ ha)
    have hnp : run ∉ ps := fun hh =>
      (List.disjoint_of_nodup_append hnd1) hh (by simp)
    have hlen : ps.length + (rs.length + 1) = as.length := by
      rw [← hps]; simp
    have hsl := h.length_le
    obtain ⟨range1, m1, stk1, e1, i1, l1, s1⟩ :=
      flatten_ok run (List.nodup_append.1 hnd1).1
        (fun a ha => hz1 a (List.mem_append_left _ ha)) h2 gas stk m range h (by omega)
    simp only [List.length_cons] at hf
    cases ha : attaches (m0.runs run).level stk1 with
    | true =>
      match stk1, i1, s1, ha with
      | [], _, _, ha => simp [attaches] at ha
      | f :: rest, i1, s1, ha =>
        obtain ⟨m2, e2, i2⟩ := i1.attach hnd1 hz1 s1 ha
        rcases sweep_outcome hnd hz hgas rs (ps ++ [run]) (m0.runs run).next f.addr m2 _ fuel
          hsplit h3 i2 (by omega) with ⟨range', m', stk', e3, i3⟩ | ⟨e3, x, r1, mx, hp, ht, hm⟩
        · refine Or.inl ⟨range', m', stk', ?_, i3⟩
          simp [sweep, h2, load_run_ok m h2, bind, Except.bind, e1, e2, h.frame run hnp, e3]
        · refine Or.inr ⟨?_, x, r1, mx, ?_, ht, hm⟩
          · simp [sweep, h2, load_run_ok m h2, bind, Except.bind, e1, e2, h.frame run hnp, e3]
          · simp only [sweep_trace, h2, if_false, e1, e2, List.mem_append, List.mem_cons]
            rw [h.frame run hnp]
            exact Or.inr (Or.inr (Or.inr hp))
    | false =>
      have htest := attach_test_eval i1.rep h2
      rw [(i1.content run).1, ha] at htest
      by_cases hroom : stk1.length + m0.live.length < m0.limit
      · obtain ⟨m2, e2, i2⟩ := i1.push hz1 hroom ha
        rcases sweep_outcome hnd hz hgas rs (ps ++ [run]) (m0.runs run).next (fresh m1.live)
          m2 _ fuel hsplit h3 i2 (by omega) with
          ⟨range', m', stk', e3, i3⟩ | ⟨e3, x, r1, mx, hp, ht, hm⟩
        · refine Or.inl ⟨range', m', stk', ?_, i3⟩
          simp [sweep, h2, load_run_ok m h2, bind, Except.bind, e1, e2, h.frame run hnp, e3]
        · refine Or.inr ⟨?_, x, r1, mx, ?_, ht, hm⟩
          · simp [sweep, h2, load_run_ok m h2, bind, Except.bind, e1, e2, h.frame run hnp, e3]
          · simp only [sweep_trace, h2, if_false, e1, e2, List.mem_append, List.mem_cons]
            rw [h.frame run hnp]
            exact Or.inr (Or.inr (Or.inr hp))
      · have hfull : (malloc m1).1 = 0 := by
          rw [malloc_null_iff, i1.live, i1.limit]
          simpa using hroom
        have e2 := attach_or_push_fail htest hfull
        refine Or.inr ⟨?_, run, range1, m1, ?_, htest, hfull⟩
        · simp [sweep, h2, load_run_ok m h2, bind, Except.bind, e1, e2]
        · simp [sweep_trace, h2, e1]

/-- A call on a well-formed line returns, or it stops on a null dereference and one of
its pushes found the allocator without room. -/
theorem linear_reorder_outcome {m : Mem α} {line : Nat} {as : List Nat} {fuel : Nat}
    (hl : IsList m.runs line as 0) (hfuel : as.length < fuel) :
    (∃ r, linear_reorder fuel line m = .ok r) ∨
    (linear_reorder fuel line m = .error .null_deref ∧
      ∃ x r1 m1, Point.flattened x r1 m1 ∈ linear_reorder_trace fuel line m ∧
        attach_test r1 x m1 = .ok false ∧ (malloc m1).1 = 0) := by
  have hnd := hl.nodup
  have hz := hl.ne_zero
  by_cases hline : line = 0
  · subst hline
    exact Or.inl ⟨_, linear_reorder_null fuel m⟩
  rcases sweep_outcome hnd hz hfuel as [] line 0 m [] fuel rfl hl (StackInv.init m) hfuel with
    ⟨range1, m1, stk1, e1, i1⟩ | ⟨e1, x, r1, mx, hp, ht, hm⟩
  · rcases linear_reorder_safe hl hfuel with h | h
    · exact Or.inl h
    · exfalso
      have hne : as ≠ [] := by
        intro e
        subst e
        exact hline hl
      have hs1 : stk1 ≠ [] := by
        intro e
        have := i1.cat
        rw [e] at this
        exact hne this.symm
      have hr1 : range1 ≠ 0 := by
        cases stk1 with
        | nil => exact absurd rfl hs1
        | cons f rest => exact i1.rep.2.1
      obtain ⟨m2, f, e2, i2⟩ := unwind_ok hnd hz fuel stk1 m1 range1 i1 hs1
        (by have := i1.length_le; omega)
      obtain ⟨_, f2, f3, _, _, f6, _, _⟩ := i2.rep
      have hcat : f.seg = as := by simpa [concat] using i2.cat
      rw [hcat] at f6
      have hx0 : (m2.ranges f.addr).right ≠ 0 := hz _ (List.mem_of_mem_getLast? f6)
      simp [linear_reorder, hline, e1, bind, Except.bind, c_assert, hr1, e2,
        load_range_ok m2 f2 f3, store_next_ok m2 0 hx0, Mem.load_range, f2, f3, pure,
        Except.pure] at h
  · refine Or.inr ⟨?_, x, r1, mx, ?_, ht, hm⟩
    · simp [linear_reorder, hline, e1, bind, Except.bind]
    · simp [linear_reorder_trace, hline, hp]

/-! ## The claims on resources, determinism, steps and invariants -/

/-- C11: on every list of n ≥ 1 runs that ends with the terminator, when the allocator has
room for one range per run, the call returns after `pushes` successful allocations (one
per push) and `merges` calls of `free` (one per merge, in the inner loop and the last loop
together) with `pushes ≤ n` and `merges = pushes - 1 ≤ n - 1`; at every point of the
execution the pushes made so far are no more than the runs consumed so far, and the stack
holds no more than n ranges. -/
theorem pushes_and_merges (m : Mem α) (line : Nat) (as : List Nat) (fuel : Nat)
    (hl : IsList m.runs line as 0) (hne : as ≠ []) (hfuel : as.length < fuel)
    (hroom : m.live.length + as.length ≤ m.limit) :
    (∃ head m' pushes merges, linear_reorder fuel line m = .ok (head, m') ∧
      m'.mallocs = m.mallocs + pushes ∧ m'.frees = m.frees + merges ∧
      pushes ≤ as.length ∧ merges + 1 = pushes ∧ merges ≤ as.length - 1) ∧
    ∀ p ∈ linear_reorder_trace fuel line m, ∃ stk ps,
      Rep p.mem p.range stk ∧ concat stk = ps ∧ ps.length ≤ as.length ∧
      p.mem.mallocs ≤ m.mallocs + ps.length ∧ stk.length ≤ as.length := by
  constructor
  · obtain ⟨m2, f, i2, e⟩ := linear_reorder_final hl hne hfuel hroom
    have hc := i2.count
    have hp := i2.pushes
    have hm := i2.merges
    simp only [List.length_cons, List.length_nil] at hc
    refine ⟨line, _, m2.mallocs - m.mallocs, m2.frees - m.frees, e, ?_, ?_, ?_, ?_, ?_⟩
    · rw [set_next_mallocs]; omega
    · rw [set_next_frees]; omega
    · omega
    · omega
    · omega
  · intro p hp
    obtain ⟨stk, ps, i, hn⟩ := (linear_reorder_trace_good hl hfuel p hp).inv
    exact ⟨stk, ps, i.rep, i.cat, hn, i.pushes, le_trans i.length_le hn⟩

theorem pushes_and_merges_witness :
    (IsList (line_of [0, 1, 2, 1, 0]).runs 1 [1, 2, 3, 4, 5] 0 ∧
      (linear_reorder_trace 6 1 (line_of [0, 1, 2, 1, 0])).length = 12) ∧
    (∃ head m' pushes merges, linear_reorder 6 1 (line_of [0, 1, 2, 1, 0]) = .ok (head, m') ∧
      m'.mallocs = (line_of [0, 1, 2, 1, 0]).mallocs + pushes ∧
      m'.frees = (line_of [0, 1, 2, 1, 0]).frees + merges ∧
      pushes ≤ [1, 2, 3, 4, 5].length ∧ merges + 1 = pushes ∧
      merges ≤ [1, 2, 3, 4, 5].length - 1) ∧
    ∀ p ∈ linear_reorder_trace 6 1 (line_of [0, 1, 2, 1, 0]), ∃ stk ps,
      Rep p.mem p.range stk ∧ concat stk = ps ∧ ps.length ≤ [1, 2, 3, 4, 5].length ∧
      p.mem.mallocs ≤ (line_of [0, 1, 2, 1, 0]).mallocs + ps.length ∧
      stk.length ≤ [1, 2, 3, 4, 5].length :=
  ⟨by decide, pushes_and_merges (line_of [0, 1, 2, 1, 0]) 1 [1, 2, 3, 4, 5] 6 (by decide)
    (by decide) (by decide) (by decide)⟩

/-- C12 (as stated it fails): the ranges held at once grow with the depth of nesting.
With room for any number of ranges, four runs of level 0 hold 1 range when the outer loop
ends, the four runs of levels 0, 1, 2, 3 hold 4, and the 126 runs of levels 0, ..., 125
hold 126.  Whatever the largest level `M` that the type of levels admits, no bound
`B ≤ M` holds for every line with levels between 0 and `M`: the runs of levels
0, 1, ..., `M` hold `M + 1` ranges. -/
theorem no_fixed_bound_on_stack :
    held_after_sweep 100 [0, 0, 0, 0] = 1 ∧ held_after_sweep 100 [0, 1, 2, 3] = 4 ∧
    held_after_sweep 126 (ramp 126) = 126 ∧
    ∀ M : Nat, ¬ ∃ B : Nat, B ≤ M ∧ ∀ (limit : Nat) (levels : List Int),
      (∀ l ∈ levels, 0 ≤ l ∧ l ≤ (M : Int)) → held_after_sweep limit levels ≤ B := by
  refine ⟨by decide, by decide, held_after_sweep_ramp 126 126 le_rfl, ?_⟩
  rintro M ⟨B, hB, h⟩
  have := h (M + 1) (ramp (M + 1)) (ramp_bounds M)
  rw [held_after_sweep_ramp (M + 1) (M + 1) le_rfl] at this
  omega

/-- C12 (amended): the ranges held at once are bounded by the number of runs, not by a
constant, and they grow with the depth of nesting.  In every memory, whatever room the
allocator has, on every list of n runs that ends with the terminator, at every point of
the execution the stack has at most n ranges and at most n ranges were allocated by the
call; and whatever the largest level `M` that the type of levels admits, the `M + 1` runs
of levels 0, 1, ..., `M` hold `M + 1` ranges when the outer loop ends. -/
theorem stack_bounded_by_runs (m : Mem α) (line : Nat) (as : List Nat) (fuel : Nat)
    (hl : IsList m.runs line as 0) (hfuel : as.length < fuel) :
    (∀ p ∈ linear_reorder_trace fuel line m, ∃ stk,
      Rep p.mem p.range stk ∧ stk.length ≤ as.length ∧
      p.mem.live.length ≤ m.live.length + as.length) ∧
    (∀ (limit : Nat) (levels : List Int), held_after_sweep limit levels ≤ levels.length) ∧
    (∀ M limit : Nat, M + 1 ≤ limit →
      (∀ l ∈ ramp (M + 1), 0 ≤ l ∧ l ≤ (M : Int)) ∧
      held_after_sweep limit (ramp (M + 1)) = M + 1) := by
  refine ⟨fun p hp => ?_, held_after_sweep_le,
    fun M limit h => ⟨ramp_bounds M, held_after_sweep_ramp limit (M + 1) h⟩⟩
  obtain ⟨stk, ps, i, hn⟩ := (linear_reorder_trace_good hl hfuel p hp).inv
  have hlen := i.length_le
  refine ⟨stk, i.rep, le_trans hlen hn, ?_⟩
  rw [i.live]
  simp only [List.length_append, List.length_map]
  omega

theorem stack_bounded_by_runs_witness :
    (IsList (line_with 100 [0, 1, 2, 3]).runs 1 [1, 2, 3, 4] 0 ∧
      (linear_reorder_trace 5 1 (line_with 100 [0, 1, 2, 3])).length = 11) ∧
    (∀ p ∈ linear_reorder_trace 5 1 (line_with 100 [0, 1, 2, 3]), ∃ stk,
      Rep p.mem p.range stk ∧ stk.length ≤ [1, 2, 3, 4].length ∧
      p.mem.live.length ≤ (line_with 100 [0, 1, 2, 3]).live.length + [1, 2, 3, 4].length) ∧
    (∀ (limit : Nat) (levels : List Int), held_after_sweep limit levels ≤ levels.length) ∧
    (∀ M limit : Nat, M + 1 ≤ limit →
      (∀ l ∈ ramp (M + 1), 0 ≤ l ∧ l ≤ (M : Int)) ∧
      held_after_sweep limit (ramp (M + 1)) = M + 1) :=
  ⟨by decide, stack_bounded_by_runs (line_with 100 [0, 1, 2, 3]) 1 [1, 2, 3, 4] 5 (by decide)
    (by decide)⟩

/-- C13: for two lists of runs, in memories that may differ in everything but the levels
the runs carry position by position, `linear_reorder` returns on both and the runs of
both outputs, read as positions in their inputs, are the same list. -/
theorem linear_reorder_level_only {β : Type} (m1 : Mem α) (m2 : Mem β) (line1 line2 : Nat)
    (as1 as2 : List Nat) (fuel : Nat)
    (h1 : IsList m1.runs line1 as1 0) (h2 : IsList m2.runs line2 as2 0)
    (hlev : as1.map (fun a => (m1.runs a).level) = as2.map (fun a => (m2.runs a).level))
    (hfuel : as1.length < fuel)
    (hroom1 : m1.live.length + as1.length ≤ m1.limit)
    (hroom2 : m2.live.length + as2.length ≤ m2.limit) :
    ∃ hd1 m1' out1 hd2 m2' out2,
      linear_reorder fuel line1 m1 = .ok (hd1, m1') ∧ IsList m1'.runs hd1 out1 0 ∧
      linear_reorder fuel line2 m2 = .ok (hd2, m2') ∧ IsList m2'.runs hd2 out2 0 ∧
      out1.map (fun a => as1.indexOf a) = out2.map (fun a => as2.indexOf a) := by
  have hlen : as1.length = as2.length := by simpa using congrArg List.length hlev
  obtain ⟨m1', e1, l1, _, _⟩ := linear_reorder_order h1 hfuel hroom1
  obtain ⟨m2', e2, l2, _, _⟩ := linear_reorder_order h2 (hlen ▸ hfuel) hroom2
  refine ⟨line1, m1', as1, line2, m2', as2, e1, l1, e2, l2, ?_⟩
  rw [map_indexOf_self h1.nodup, map_indexOf_self h2.nodup, hlen]

theorem linear_reorder_level_only_witness :
    (IsList (line_of [0, 1, 2]).runs 1 [1, 2, 3] 0 ∧ IsList scattered_line.runs 7 [7, 3, 5] 0) ∧
    ∃ hd1 m1' out1 hd2 m2' out2,
      linear_reorder 4 1 (line_of [0, 1, 2]) = .ok (hd1, m1') ∧ IsList m1'.runs hd1 out1 0 ∧
      linear_reorder 4 7 scattered_line = .ok (hd2, m2') ∧ IsList m2'.runs hd2 out2 0 ∧
      out1.map (fun a => [1, 2, 3].indexOf a) = out2.map (fun a => [7, 3, 5].indexOf a) :=
  ⟨by decide, linear_reorder_level_only (line_of [0, 1, 2]) scattered_line 1 7 [1, 2, 3]
    [7, 3, 5] 4 (by decide) (by decide) (by decide) (by decide) (by decide) (by decide)⟩

/-- C14 (as stated it fails): when `malloc` has no room it returns null, the first
statement after it stores through that null pointer, and the execution stops there on a
null dereference: no error is reported to the caller.  This is so when the allocator is
full at the call (one run, no room) and when it becomes full in the middle of the line
(runs of levels 0 and 1, room for one range: the push of the second run fails). -/
theorem linear_reorder_alloc_failure_unreported :
    (malloc (line_with 0 [0])).1 = 0 ∧
    (malloc (line_with 0 [0])).2.store_right (malloc (line_with 0 [0])).1 1 =
      .error .null_deref ∧
    push 0 1 (line_with 0 [0]) = .error .null_deref ∧
    linear_reorder 2 1 (line_with 0 [0]) = .error .null_deref ∧
    linear_reorder 3 1 (line_with 1 [0, 1]) = .error .null_deref :=
  ⟨rfl, rfl, rfl, rfl, rfl⟩

/-- C14 (amended): a failed allocation is not reported, it ends the call on a store
through the null pointer.  When `malloc` returns null, the first statement of `push`
after it stores through that pointer, a null dereference.  On a list of runs that ends
with the terminator: if at any point of the call the inner loop has ended, the test of the
`if` is false (the run is to be pushed) and `malloc` returns null there, the call ends in
that null dereference; and the call either returns its result or ends in a null
dereference at such a point. -/
theorem linear_reorder_alloc_failure (m : Mem α) (line : Nat) (as : List Nat) (fuel : Nat)
    (hl : IsList m.runs line as 0) (hfuel : as.length < fuel) :
    (∀ (range run : Nat) (m1 : Mem α), (malloc m1).1 = 0 →
      (malloc m1).2.store_right (malloc m1).1 run = .error .null_deref ∧
      push range run m1 = .error .null_deref) ∧
    (∀ (run range : Nat) (m1 : Mem α),
      Point.flattened run range m1 ∈ linear_reorder_trace fuel line m →
      attach_test range run m1 = .ok false → (malloc m1).1 = 0 →
      linear_reorder fuel line m = .error .null_deref) ∧
    ((∃ r, linear_reorder fuel line m = .ok r) ∨
      (linear_reorder fuel line m = .error .null_deref ∧
        ∃ run range m1, Point.flattened run range m1 ∈ linear_reorder_trace fuel line m ∧
          attach_test range run m1 = .ok false ∧ (malloc m1).1 = 0)) := by
  refine ⟨fun range run m1 h => ⟨?_, push_fail m1 range run ((malloc_null_iff m1).1 h)⟩,
    fun run range m1 hp ht hm => linear_reorder_trace_fault hp (attach_or_push_fail ht hm),
    linear_reorder_outcome hl hfuel⟩
  rw [h]
  simp [Mem.store_right, Mem.load_range, bind, Except.bind]

theorem linear_reorder_alloc_failure_witness :
    (IsList (line_with 1 [0, 1]).runs 1 [1, 2] 0 ∧
      linear_reorder 3 1 (line_with 1 [0, 1]) = .error .null_deref) ∧
    (∀ (range run : Nat) (m1 : Mem Unit), (malloc m1).1 = 0 →
      (malloc m1).2.store_right (malloc m1).1 run = .error .null_deref ∧
      push range run m1 = .error .null_deref) ∧
    (∀ (run range : Nat) (m1 : Mem Unit),
      Point.flattened run range m1 ∈ linear_reorder_trace 3 1 (line_with 1 [0, 1]) →
      attach_test range run m1 = .ok false → (malloc m1).1 = 0 →
      linear_reorder 3 1 (line_with 1 [0, 1]) = .error .null_deref) ∧
    ((∃ r, linear_reorder 3 1 (line_with 1 [0, 1]) = .ok r) ∨
      (linear_reorder 3 1 (line_with 1 [0, 1]) = .error .null_deref ∧
        ∃ run range m1,
          Point.flattened run range m1 ∈ linear_reorder_trace 3 1 (line_with 1 [0, 1]) ∧
          attach_test range run m1 = .ok false ∧ (malloc m1).1 = 0)) :=
  ⟨⟨by decide, rfl⟩, linear_reorder_alloc_failure (line_with 1 [0, 1]) 1 [1, 2] 3 (by decide)
    (by decide)⟩

/-- C15 (the code departs from it): the first run, of level 2, is pushed and the second
run, of the odd level 1, is attached.  The claim has the second run become the left end
(`left` = run 2, the `next` of run 2 = run 1, `right` = run 1); the code makes it the
right end: `left` = run 1, `right` = run 2, the `next` of run 1 = run 2 and the `next` of
run 2 untouched; the level of the range becomes 1, as claimed. -/
theorem attach_odd_goes_right :
    attach_second [2, 1] = .ok ((1, 1, 2, 0), 2, 0) := by
  decide

/-- C16 (the code departs from it): run 1 of level 1 and run 2 of level 2 are pushed and
the top range is merged with the one beneath, whose level 1 is odd.  The claim has the
span of the range beneath go to the right (`left` = run 2, `right` = run 1, the `next`
of run 2 = run 1); the code puts it to the left: `left` = run 1, `right` = run 2, the
`next` of run 1 = run 2 and the `next` of run 2 untouched. -/
theorem merge_odd_goes_left :
    merge_second [1, 2] = .ok ((1, 1, 2, 0), 2, 0) := by
  decide

/-- C17: the empty stack has increasing levels, and on every list of runs that ends with
the terminator, whatever the levels and whatever room the allocator has, at every point of
the execution (after each merge of the inner loop, after each attach or push, after each
merge of the last loop) the ranges reached from `range` through `previous` are the frames
of a stack whose levels increase strictly towards the top: every range of it that has a
range beneath has a level strictly greater than the level of that range. -/
theorem stack_levels_increase (m : Mem α) (line : Nat) (as : List Nat) (fuel : Nat)
    (hl : IsList m.runs line as 0) (hfuel : as.length < fuel) :
    (Rep m 0 [] ∧ Increasing []) ∧
    ∀ p ∈ linear_reorder_trace fuel line m, ∃ stk,
      Rep p.mem p.range stk ∧ Increasing stk ∧
      ∀ f ∈ stk, (p.mem.ranges f.addr).previous ≠ 0 →
        (p.mem.ranges (p.mem.ranges f.addr).previous).level < (p.mem.ranges f.addr).level := by
  refine ⟨⟨rfl, trivial⟩, fun p hp => ?_⟩
  obtain ⟨stk, ps, i, _⟩ := (linear_reorder_trace_good hl hfuel p hp).inv
  exact ⟨stk, i.rep, i.incr, Rep.above_previous i.rep i.incr⟩

theorem stack_levels_increase_witness :
    (IsList (line_of [0, 1, 2, 1, 0]).runs 1 [1, 2, 3, 4, 5] 0 ∧
      (linear_reorder_trace 6 1 (line_of [0, 1, 2, 1, 0])).length = 12) ∧
    (Rep (line_of [0, 1, 2, 1, 0]) 0 [] ∧ Increasing []) ∧
    ∀ p ∈ linear_reorder_trace 6 1 (line_of [0, 1, 2, 1, 0]), ∃ stk,
      Rep p.mem p.range stk ∧ Increasing stk ∧
      ∀ f ∈ stk, (p.mem.ranges f.addr).previous ≠ 0 →
        (p.mem.ranges (p.mem.ranges f.addr).previous).level < (p.mem.ranges f.addr).level :=
  ⟨by decide, stack_levels_increase (line_of [0, 1, 2, 1, 0]) 1 [1, 2, 3, 4, 5] 6 (by decide)
    (by decide)⟩

/-- C18: on every list of runs that ends with the terminator, whatever the levels and
whatever room the allocator has, at every point of the execution (after each merge,
attach or push) every range of the stack is such that following `next` from its `left`
run reaches its `right` run after finitely many steps. -/
theorem range_left_reaches_right (m : Mem α) (line : Nat) (as : List Nat) (fuel : Nat)
    (hl : IsList m.runs line as 0) (hfuel : as.length < fuel) :
    ∀ p ∈ linear_reorder_trace fuel line m, ∃ stk,
      Rep p.mem p.range stk ∧
      ∀ f ∈ stk, ∃ k, (fun x => (p.mem.runs x).next)^[k] (p.mem.ranges f.addr).left =
        (p.mem.ranges f.addr).right := by
  intro p hp
  obtain ⟨stk, ps, i, _⟩ := (linear_reorder_trace_good hl hfuel p hp).inv
  exact ⟨stk, i.rep, Rep.reaches i.rep⟩

theorem range_left_reaches_right_witness :
    (IsList (line_of [0, 1, 2, 1, 0]).runs 1 [1, 2, 3, 4, 5] 0 ∧
      (linear_reorder_trace 6 1 (line_of [0, 1, 2, 1, 0])).length = 12) ∧
    ∀ p ∈ linear_reorder_trace 6 1 (line_of [0, 1, 2, 1, 0]), ∃ stk,
      Rep p.mem p.range stk ∧
      ∀ f ∈ stk, ∃ k, (fun x => (p.mem.runs x).next)^[k] (p.mem.ranges f.addr).left =
        (p.mem.ranges f.addr).right :=
  ⟨by decide, range_left_reaches_right (line_of [0, 1, 2, 1, 0]) 1 [1, 2, 3, 4, 5] 6
    (by decide) (by decide)⟩

/-- C19: the remainder `level % 1` is 0 for every level, and on every list of runs that
ends with the terminator, whatever the levels, when the allocator has room for one range
per run, `linear_reorder` returns the first run of the input and leaves the runs linked
in the logical order of the input. -/
theorem linear_reorder_identity (m : Mem α) (line : Nat) (as : List Nat) (fuel : Nat)
    (hl : IsList m.runs line as 0) (hfuel : as.length < fuel)
    (hroom : m.live.length + as.length ≤ m.limit) :
    (∀ x : Int, c_mod x 1 = 0) ∧
    ∃ m', linear_reorder fuel line m = .ok (line, m') ∧ IsList m'.runs line as 0 ∧
      as.head?.getD 0 = line ∧ walk m'.runs as.length line = some as := by
  obtain ⟨m', e, h1, _, _⟩ := linear_reorder_order hl hfuel hroom
  refine ⟨c_mod_one, m', e, h1, ?_, walk_of_isList _ h1 le_rfl⟩
  cases as with
  | nil => exact (show line = 0 from hl).symm
  | cons a as => exact hl.1.symm

theorem linear_reorder_identity_witness :
    IsList (line_of [1, 3, 2, 5, 1]).runs 1 [1, 2, 3, 4, 5] 0 ∧
    (∀ x : Int, c_mod x 1 = 0) ∧
    ∃ m', linear_reorder 6 1 (line_of [1, 3, 2, 5, 1]) = .ok (1, m') ∧
      IsList m'.runs 1 [1, 2, 3, 4, 5] 0 ∧ [1, 2, 3, 4, 5].head?.getD 0 = 1 ∧
      walk m'.runs [1, 2, 3, 4, 5].length 1 = some [1, 2, 3, 4, 5] :=
  ⟨by decide, linear_reorder_identity (line_of [1, 3, 2, 5, 1]) 1 [1, 2, 3, 4, 5] 6
    (by decide) (by decide) (by decide)⟩

/-- C20: on every list of runs that ends with the terminator, whatever the levels: at each
point of the execution just after a run was attached or pushed, the range on top of the
stack has the level of that run and every other range of the stack has a strictly lower
level; at each point where the inner loop ends for a run, every range of the stack but the
top has a level strictly lower than the level of that run; and when the allocator has
room for one range per run, every run of the list has its point after attach or push. -/
theorem top_level_is_run_level (m : Mem α) (line : Nat) (as : List Nat) (fuel : Nat)
    (hl : IsList m.runs line as 0) (hfuel : as.length < fuel) :
    (∀ run range m', Point.consumed run range m' ∈ linear_reorder_trace fuel line m →
      ∃ f rest, Rep m' range (f :: rest) ∧
        (m'.ranges range).level = (m'.runs run).level ∧
        ∀ g ∈ rest, (m'.ranges g.addr).level < (m'.runs run).level) ∧
    (∀ run range m', Point.flattened run range m' ∈ linear_reorder_trace fuel line m →
      ∃ stk, Rep m' range stk ∧
        ∀ g ∈ stk.tail, (m'.ranges g.addr).level < (m'.runs run).level) ∧
    (m.live.length + as.length ≤ m.limit →
      ∀ r ∈ as, ∃ range m', Point.consumed r range m' ∈ linear_reorder_trace fuel line m) := by
  refine ⟨fun run range m' hp => ?_, fun run range m' hp => ?_,
    fun hroom => linear_reorder_trace_consumes hl hfuel hroom⟩
  · obtain ⟨f, rest, ps, i, _, ht⟩ := linear_reorder_trace_good hl hfuel _ hp
    have hlev := (i.content run).1
    refine ⟨f, rest, i.rep, ?_, fun g hg => ?_⟩
    · rw [hlev, ← ht]
      exact i.rep.2.2.2.1
    · rw [hlev, ← ht, Rep.level_eq i.rep g (List.mem_cons_of_mem _ hg)]
      exact Increasing.lt_top i.incr g hg
  · obtain ⟨stk, ps, i, _, hs⟩ := linear_reorder_trace_good hl hfuel _ hp
    refine ⟨stk, i.rep, fun g hg => ?_⟩
    rw [(i.content run).1, Rep.level_eq i.rep g (List.mem_of_mem_tail hg)]
    exact settled_below i.incr hs g hg

theorem top_level_is_run_level_witness :
    IsList (line_of [0, 1, 2, 1, 0]).runs 1 [1, 2, 3, 4, 5] 0 ∧
    (∀ run range m',
      Point.consumed run range m' ∈ linear_reorder_trace 6 1 (line_of [0, 1, 2, 1, 0]) →
      ∃ f rest, Rep m' range (f :: rest) ∧
        (m'.ranges range).level = (m'.runs run).level ∧
        ∀ g ∈ rest, (m'.ranges g.addr).level < (m'.runs run).level) ∧
    (∀ run range m',
      Point.flattened run range m' ∈ linear_reorder_trace 6 1 (line_of [0, 1, 2, 1, 0]) →
      ∃ stk, Rep m' range stk ∧
        ∀ g ∈ stk.tail, (m'.ranges g.addr).level < (m'.runs run).level) ∧
    ∀ r ∈ [1, 2, 3, 4, 5], ∃ range m',
      Point.consumed r range m' ∈ linear_reorder_trace 6 1 (line_of [0, 1, 2, 1, 0]) :=
  have h := top_level_is_run_level (line_of [0, 1, 2, 1, 0]) 1 [1, 2, 3, 4, 5] 6 (by decide)
    (by decide)
  ⟨by decide, h.1, h.2.1, h.2.2 (by decide)⟩

end LinearReorder
